import Mathlib

/-!
Verification of the SOAPify note-generation pipeline.

This file gives a shallow embedding, in Lean, of the core of the
`soapify-backend` application: the transcript sanitizer and the SOAP
validator (pure string transforms, modelled character by character over
`List Char`), the submission endpoint, the background generation task,
and the retrieval (RAG) store.  Python strings are modelled as `List Char`
(`String` at the boundaries); Python regular expressions are modelled by
explicit recursive scanners whose semantics is documented next to each
definition.  External effects (the LLM backend, the vector store, clock)
are passed in as explicit oracle arguments.
-/

set_option maxRecDepth 16000

namespace Soapify

/-! ## Python string primitives

`pyWs` is the Python `\s` / `str.strip` whitespace class restricted to the
ASCII range (space, tab, newline, carriage return, vertical tab, form feed);
the transcripts and LLM outputs modelled here are ASCII-oriented, and none
of the modelled regexes distinguishes wider Unicode whitespace. -/

def pyWs (c : Char) : Bool :=
  c = ' ' || c = '\t' || c = '\n' || c = '\r' || c = '\x0b' || c = '\x0c'

/-- Python `str.strip()` on a character list: drop whitespace at both ends. -/
def pyStrip (l : List Char) : List Char :=
  ((l.dropWhile pyWs).reverse.dropWhile pyWs).reverse

/-- Python `\w` (word character) for the ASCII range: letters, digits, underscore. -/
def isWordChar (c : Char) : Bool :=
  c.isAlphanum || c = '_'

/-- First index at which `pat` occurs as a contiguous sublist of `l`
(Python `str.find` / `str.index`). -/
def pyFind (pat : List Char) : List Char → Option Nat
  | [] => if pat = [] then some 0 else none
  | c :: cs => if pat.isPrefixOf (c :: cs) then some 0 else (pyFind pat cs).map (· + 1)

/-- Python `pat in s` (substring containment). -/
def pyContains (pat l : List Char) : Bool :=
  (pyFind pat l).isSome

/-- Python slice `l[a:b]` (for the in-range indices used here). -/
def pySlice (l : List Char) (a b : Nat) : List Char :=
  (l.take b).drop a

/-! ## Validator (`app/services/soap_validator.py`) -/

def SUBJECTIVE : List Char := "SUBJECTIVE:".toList
def OBJECTIVE : List Char := "OBJECTIVE:".toList
def ASSESSMENT : List Char := "ASSESSMENT:".toList
def PLAN : List Char := "PLAN:".toList

/-- `REQUIRED_SECTIONS` of the validator. -/
def REQUIRED_SECTIONS : List (List Char) := [SUBJECTIVE, OBJECTIVE, ASSESSMENT, PLAN]

/-- `re.search(r"^\s*-\s+", text, re.MULTILINE)` tested at one line start:
after skipping any whitespace (which, as in Python, may include further
newlines, since only `^` is affected by MULTILINE), a dash followed by at
least one whitespace character. -/
def bulletDashAt (cs : List Char) : Bool :=
  match cs.dropWhile pyWs with
  | '-' :: d :: _ => pyWs d
  | _ => false

/-- `re.search(r"^\s*\*\s+", ...)` tested at one line start. -/
def bulletStarAt (cs : List Char) : Bool :=
  match cs.dropWhile pyWs with
  | '*' :: d :: _ => pyWs d
  | _ => false

/-- `re.search(r"^\s*\d+\.\s+", ...)` tested at one line start:
whitespace, then at least one digit, a dot, and whitespace. -/
def numberedAt (cs : List Char) : Bool :=
  let r := (cs.dropWhile pyWs)
  let ds := r.takeWhile Char.isDigit
  match ds, r.drop ds.length with
  | _ :: _, '.' :: d :: _ => pyWs d
  | _, _ => false

/-- `re.search(r"^#+\s+", ...)` tested at one line start:
one or more `#` then at least one whitespace character. -/
def headingAt (cs : List Char) : Bool :=
  let hs := cs.takeWhile (· = '#')
  match hs, cs.drop hs.length with
  | _ :: _, d :: _ => pyWs d
  | _, _ => false

/-- The four line-anchored forbidden patterns tested at one position,
plus the un-anchored code-fence pattern `` ``` ``. -/
def forbiddenAt (lineStart : Bool) (cs : List Char) : Bool :=
  (lineStart && (bulletDashAt cs || bulletStarAt cs || numberedAt cs || headingAt cs))
    || ("```".toList.isPrefixOf cs)

/-- Whether any of the five `FORBIDDEN_PATTERNS` regexes matches anywhere in
the text (MULTILINE mode: `^` matches at the start and after every newline).
The scan carries a flag recording whether the current position is a line
start. -/
def hasForbidden : Bool → List Char → Bool
  | _, [] => false
  | ls, c :: cs => forbiddenAt ls (c :: cs) || hasForbidden (c = '\n') cs

/-- Position of a section marker in the cleaned text (`clean_text.index(sec)`);
only evaluated after presence has been checked, so the default is never used. -/
def sectionPos (clean : List Char) (sec : List Char) : Nat :=
  (pyFind sec clean).getD 0

/-- The content slice under the `i`-th section:
`clean_text[index(sec)+len(sec) : index(next-sec) or len]`, stripped and
lower-cased exactly as the Python code does before the emptiness test. -/
def sectionContent (clean : List Char) (sec : List Char) (endPos : Nat) : List Char :=
  (pyStrip (pySlice clean (sectionPos clean sec + sec.length) endPos)).map Char.toLower

/-- The checks of `validate_soap_output` on the stripped text, translated
branch for branch. -/
def validateChain (clean : List Char) : Bool × String :=
  if ¬ (SUBJECTIVE.isPrefixOf clean) then (false, "SOAP must start with SUBJECTIVE")
  else if ¬ pyContains SUBJECTIVE clean then (false, "Missing section: SUBJECTIVE:")
  else if ¬ pyContains OBJECTIVE clean then (false, "Missing section: OBJECTIVE:")
  else if ¬ pyContains ASSESSMENT clean then (false, "Missing section: ASSESSMENT:")
  else if ¬ pyContains PLAN clean then (false, "Missing section: PLAN:")
  -- `positions != sorted(positions)`: for the four first-occurrence
  -- offsets this is exactly failure of the non-decreasing chain.
  else if ¬ (sectionPos clean SUBJECTIVE ≤ sectionPos clean OBJECTIVE ∧
      sectionPos clean OBJECTIVE ≤ sectionPos clean ASSESSMENT ∧
      sectionPos clean ASSESSMENT ≤ sectionPos clean PLAN) then
    (false, "Sections out of order")
  else if hasForbidden true clean then (false, "Forbidden markdown formatting detected")
  else if sectionContent clean SUBJECTIVE (sectionPos clean OBJECTIVE) = [] then
    (false, "Empty content under SUBJECTIVE:")
  else if sectionContent clean OBJECTIVE (sectionPos clean ASSESSMENT) = [] then
    (false, "Empty content under OBJECTIVE:")
  else if sectionContent clean ASSESSMENT (sectionPos clean PLAN) = [] then
    (false, "Empty content under ASSESSMENT:")
  else if sectionContent clean PLAN clean.length = [] then
    (false, "Empty content under PLAN:")
  else (true, "Valid SOAP")

/-- `validate_soap_output` of `app/services/soap_validator.py`.  Note the
`continue` for the sentinel value `"not mentioned"` has no observable
effect and is therefore not modelled. -/
def validate_soap_output (t : String) : Bool × String :=
  if pyStrip t.toList = [] then (false, "Empty output")
  else validateChain (pyStrip t.toList)

/-! ## Sanitizer (`sanitize_transcript` in `app/api/v1/endpoints/notes.py`)

The sanitizer is a chain of Python string operations:
`strip`, normalisation of `\r\n`/`\r` to `\n`,
`re.sub(r"\n\s*\n+", "\n", ·)`, `re.sub(r"[ \t]+", " ", ·)`, and four
case-insensitive word-boundary shorthand expansions.  Each `re.sub` is
modelled by a structurally recursive scanner with the same left-to-right,
non-overlapping, greedy semantics. -/

/-- `text.replace("\r\n", "\n").replace("\r", "\n")`: a CRLF pair becomes one
newline, a lone CR becomes a newline. -/
def nlNorm : List Char → List Char
  | [] => []
  | [c] => if c = '\r' then ['\n'] else [c]
  | c :: d :: cs =>
    if c = '\r' then
      if d = '\n' then '\n' :: nlNorm cs else '\n' :: nlNorm (d :: cs)
    else c :: nlNorm (d :: cs)

/-- Horizontal whitespace of `[ \t]`. -/
def isHT (c : Char) : Bool := c = ' ' || c = '\t'

/-- `re.sub(r"[ \t]+", " ", ·)` as a scanner: the flag records whether we are
inside a run of spaces/tabs whose first character has already been replaced
by a single space. -/
def spacesF : Bool → List Char → List Char
  | _, [] => []
  | inRun, c :: cs =>
    if isHT c then
      if inRun then spacesF true cs else ' ' :: spacesF true cs
    else c :: spacesF false cs

def collapseSpaces (l : List Char) : List Char := spacesF false l

/-- `re.sub(r"\n\s*\n+", "\n", ·)` as a scanner.  A match starts at a newline
and consumes the following whitespace run up to and including its last
newline; it is replaced by a single newline (so trailing horizontal
whitespace of the run survives).  The mode `some buf` means: a newline has
just been emitted and `buf` holds (reversed) the non-newline whitespace seen
since; a further newline discards the buffer (the match is still running),
while a non-whitespace character flushes it. -/
def blanksF : Option (List Char) → List Char → List Char
  | none, [] => []
  | none, c :: cs =>
    if c = '\n' then '\n' :: blanksF (some []) cs else c :: blanksF none cs
  | some buf, [] => buf.reverse
  | some buf, c :: cs =>
    if c = '\n' then blanksF (some []) cs
    else if pyWs c then blanksF (some (c :: buf)) cs
    else buf.reverse ++ c :: blanksF none cs

def collapseBlanks (l : List Char) : List Char := blanksF none l

/-- One shorthand-expansion rule of the `replacements` table:
a non-empty case-insensitive token, whether the pattern ends in `:?`,
and the replacement text. -/
structure Rule where
  tokHead : Char
  tokTail : List Char
  optColon : Bool
  repl : List Char

def Rule.tok (r : Rule) : List Char := r.tokHead :: r.tokTail

/-- Case-insensitive literal match of `tok` (given lower-case) against the
head of the text, as the `re.IGNORECASE` patterns do. -/
def tokAt : List Char → List Char → Bool
  | [], _ => true
  | _ :: _, [] => false
  | t :: ts, c :: cs => c.toLower = t && tokAt ts cs

/-- `\b` on the left of the token: start of text or a non-word character
(the token starts with a word character). -/
def boundaryL : Option Char → Bool
  | none => true
  | some c => !(isWordChar c)

/-- `\b` on the right of the token: end of text or a non-word character
(the token ends with a word character). -/
def boundaryR : List Char → Bool
  | [] => true
  | c :: _ => !(isWordChar c)

/-- Whether a rule matches at the current position, `prev` being the
character just before that position in the original text. -/
def matchAt (r : Rule) (prev : Option Char) (cs : List Char) : Bool :=
  boundaryL prev && tokAt r.tok cs && boundaryR (cs.drop r.tok.length)

/-- `re.sub` for one expansion rule, fuelled to keep the recursion
structural (`fuel ≥ length` always holds at the call sites, see
`expandTok`).  On a match the replacement is emitted and scanning resumes
after the consumed text (the matched token plus, for `:?` patterns, a
directly following colon); `prev` is always the character of the original
text just before the current position, as Python `\b` assertions inspect
the original string. -/
def expandF (r : Rule) : Nat → Option Char → List Char → List Char
  | _, _, [] => []
  | 0, _, cs => cs
  | fuel + 1, prev, c :: cs =>
    if matchAt r prev (c :: cs) then
      if r.optColon = true ∧ ((c :: cs).drop r.tok.length).head? = some ':' then
        r.repl ++ expandF r fuel (some ':') ((c :: cs).drop r.tok.length).tail
      else
        r.repl ++ expandF r fuel (some (((c :: cs).take r.tok.length).getLastD c))
          ((c :: cs).drop r.tok.length)
    else c :: expandF r fuel (some c) cs

def expandTok (r : Rule) (prev : Option Char) (cs : List Char) : List Char :=
  expandF r cs.length prev cs

/-- `r"\bPt\b:?" -> "Patient:"` -/
def ptRule : Rule := ⟨'p', ['t'], true, "Patient:".toList⟩
/-- `r"\bDr\b:?" -> "Doctor:"` -/
def drRule : Rule := ⟨'d', ['r'], true, "Doctor:".toList⟩
/-- `r"\bHx\b" -> "History"` -/
def hxRule : Rule := ⟨'h', ['x'], false, "History".toList⟩
/-- `r"\bC\/O\b" -> "Complains of"` -/
def coRule : Rule := ⟨'c', ['/', 'o'], false, "Complains of".toList⟩

/-- The body of the sanitizer after the emptiness check, on character lists:
strip, newline normalisation, blank-line collapse, horizontal-space collapse,
then the four expansions in the order of the `replacements` dict. -/
def sanitizePipeline (cs : List Char) : List Char :=
  expandTok coRule none
    (expandTok hxRule none
      (expandTok drRule none
        (expandTok ptRule none
          (collapseSpaces (collapseBlanks (nlNorm (pyStrip cs)))))))

/-- `sanitize_transcript` of `app/api/v1/endpoints/notes.py`.
`not raw_text or not raw_text.strip()` is equivalent to the stripped text
being empty. -/
def sanitize_transcript (raw : String) : String :=
  if pyStrip raw.toList = [] then "No transcript provided."
  else ⟨sanitizePipeline raw.toList⟩

/-! ## Data model (`app/models/models.py`, `app/schemas/transcript.py`)

Autoincrement primary keys are modelled as the length of the respective
table at insertion time; they are only used as opaque identifiers. -/

/-- `TranscriptCreate` request schema.  `patient_name` defaults to
`"Unknown Patient"` and `age` to `None` when the client omits them. -/
structure TranscriptCreate where
  patient_name : Option String := some "Unknown Patient"
  age : Option Int := none
  transcript_text : String
deriving DecidableEq

structure PatientRec where
  id : Nat
  doctor_id : Nat
  name : Option String
  age : Int
  gender : Option String
deriving DecidableEq

structure TranscriptRec where
  id : Nat
  doctor_id : Nat
  patient_id : Nat
  text : String
deriving DecidableEq

structure NoteRec where
  id : Nat
  transcript_id : Nat
  doctor_id : Nat
  doctor_soap_number : Nat
  status : String
  content : String
deriving DecidableEq

structure DB where
  patients : List PatientRec := []
  transcripts : List TranscriptRec := []
  notes : List NoteRec := []
deriving DecidableEq

structure HTTPException where
  status_code : Nat
  detail : String
deriving DecidableEq

/-- The synchronous response body of `POST /Generate`. -/
structure GenerateResponse where
  id : Nat
  soap_number : Nat
  patient_name : Option String
  status : String
  message : String
deriving DecidableEq

/-- The arguments handed to `background_tasks.add_task(process_transcript_task,
request, current_user.id, soap_note.id)`: the whole original request object,
the author id and the id of the placeholder note. -/
structure TaskArgs where
  data : TranscriptCreate
  doctor_id : Nat
  soap_id : Nat
deriving DecidableEq

/-- `db.query(func.max(SOAPNote.doctor_soap_number)).filter(doctor_id == uid)`
with the `(last_number or 0)` default for an author with no notes. -/
def maxSeq (notes : List NoteRec) (uid : Nat) : Nat :=
  ((notes.filter (fun n => n.doctor_id = uid)).map (·.doctor_soap_number)).foldr max 0

/-- Whether `(uid, num)` would violate `uq_doctor_soap_number`, the storage
layer unique constraint on `(doctor_id, doctor_soap_number)`. -/
def seqTaken (notes : List NoteRec) (uid num : Nat) : Bool :=
  notes.any (fun n => n.doctor_id = uid && n.doctor_soap_number = num)

/-- Inserting the placeholder note row: the storage layer rejects the insert
(integrity error at commit) when the unique constraint is violated. -/
def insertNote (db : DB) (note : NoteRec) : Except Unit DB :=
  if seqTaken db.notes note.doctor_id note.doctor_soap_number then .error ()
  else .ok { db with notes := note :: db.notes }

/-- Steps 2–5 of the `try:` block of `generate_soap_notes` once the patient
row is settled (`db1` already contains it): the transcript row stores the
sanitized text; the doctor-scoped sequence number is read as max-plus-one;
the placeholder note is inserted with status `"PROCESSING"` and committed;
the background task is scheduled with the original request object. -/
def submitRest (db1 : DB) (uid : Nat) (req : TranscriptCreate) (patient : PatientRec) :
    Except HTTPException (DB × GenerateResponse × TaskArgs) :=
  let transcript : TranscriptRec :=
    ⟨db1.transcripts.length, uid, patient.id, sanitize_transcript req.transcript_text⟩
  let db2 : DB := { db1 with transcripts := transcript :: db1.transcripts }
  let next := maxSeq db2.notes uid + 1
  let note : NoteRec :=
    ⟨db2.notes.length, transcript.id, uid, next, "PROCESSING",
      "AI is generating your note. Please wait..."⟩
  match insertNote db2 note with
  | .error _ => .error ⟨500, "IntegrityError"⟩
  | .ok db3 =>
    .ok (db3,
      ⟨note.id, note.doctor_soap_number, patient.name, note.status,
        "Note generation started."⟩,
      ⟨req, uid, note.id⟩)

/-- The body of the `try:` block of `generate_soap_notes`
(`app/api/v1/endpoints/notes.py`): missing age raises `HTTPException(400)`;
then the doctor-scoped patient is fetched by `(doctor_id, name, age)` or
created. -/
def generate_soap_notes_inner (db : DB) (uid : Nat) (req : TranscriptCreate) :
    Except HTTPException (DB × GenerateResponse × TaskArgs) :=
  if req.age = none then .error ⟨400, "Age is required."⟩
  else
    match db.patients.find? (fun p =>
        p.doctor_id = uid && p.name = req.patient_name && some p.age = req.age) with
    | some patient => submitRest db uid req patient
    | none =>
      -- `getattr(request, "gender", None)`: `TranscriptCreate` has no
      -- gender field, so the new patient row always gets `None`.
      let patient : PatientRec :=
        ⟨db.patients.length, uid, req.patient_name, req.age.getD 0, none⟩
      submitRest { db with patients := patient :: db.patients } uid req patient

/-- `POST /Generate` with its `except Exception` wrapper: any exception inside
the `try:` block — including the deliberately raised `HTTPException(400)` —
is caught, the session is rolled back (the database is left unchanged) and a
generic `HTTPException(500, "Failed to submit transcript")` is raised
instead. -/
def generate_soap_notes (db : DB) (uid : Nat) (req : TranscriptCreate) :
    Except HTTPException (GenerateResponse × TaskArgs) × DB :=
  match generate_soap_notes_inner db uid req with
  | .ok (db3, resp, args) => (.ok (resp, args), db3)
  | .error _ => (.error ⟨500, "Failed to submit transcript"⟩, db)

/-! ## Prompt builder (`build_prompt` in `app/services/llm_engine.py`) -/

/-- The fixed instruction template of `build_prompt`, with the retrieved
history and the transcript interpolated at their two slots; the surrounding
f-string is `.strip()`-ed, which removes the leading and trailing newline of
the literal. -/
def build_prompt (history transcript : String) : String :=
  String.intercalate "\n"
    [ "You are a clinical medical scribe generating a SOAP note.",
      "",
      "THIS SOAP NOTE IS ONLY FOR THE CURRENT VISIT.",
      "PAST VISITS ARE PROVIDED FOR CONTEXT ONLY.",
      "",
      "CRITICAL TEMPORAL RULES (NO EXCEPTIONS):",
      "- Use CURRENT VISIT TRANSCRIPT as the ONLY source of truth.",
      "- PREVIOUS MEDICAL HISTORY is for background understanding ONLY.",
      "- DO NOT copy symptoms, vitals, plans, or findings from past visits.",
      "- Past information may be referenced ONLY in ASSESSMENT if relevant",
      "  (e.g., \"known asthma\", \"previous exacerbation\").",
      "- NEVER repeat old vitals, complaints, or plans unless explicitly stated again.",
      "",
      "ABSOLUTE RULES (NO EXCEPTIONS):",
      "- Output plain text only.",
      "- Do NOT use bullets, lists, markdown, or special formatting.",
      "- Do NOT add reminders, explanations, disclaimers, or extra sections.",
      "- Do NOT invent information.",
      "- If information is truly absent, write exactly: Not mentioned.",
      "- Investigations, tests, studies, or results MUST be included ONLY if explicitly stated.",
      "- Output must begin directly with \"SUBJECTIVE:\".",
      "",
      "SUBJECTIVE RULES:",
      "- Include ONLY symptoms, complaints, and history stated IN THIS VISIT.",
      "- Do NOT include prior visit symptoms unless repeated again.",
      "- Do NOT include vitals or examination findings.",
      "- If absent, write exactly: Not mentioned.",
      "",
      "OBJECTIVE RULES (STRICT):",
      "- Include ONLY vitals or findings measured IN THIS VISIT.",
      "- Do NOT reuse vitals from past visits.",
      "- If objective data exists today, OBJECTIVE MUST NOT be \"Not mentioned\".",
      "- If absent today, write exactly: Not mentioned.",
      "",
      "ASSESSMENT RULES:",
      "- Clinical impression for THIS VISIT.",
      "- You MAY reference past diagnoses for continuity (e.g., known asthma).",
      "- Do NOT restate old resolved problems.",
      "",
      "PLAN RULES:",
      "- Include ONLY plans stated or implied IN THIS VISIT.",
      "- Do NOT repeat previous plans unless explicitly continued.",
      "- If absent, write exactly: Not mentioned.",
      "",
      "FORMAT RULES (STRICT):",
      "- Output ONLY these four sections in this exact order:",
      "  SUBJECTIVE:",
      "  OBJECTIVE:",
      "  ASSESSMENT:",
      "  PLAN:",
      "",
      "========================",
      "PREVIOUS MEDICAL HISTORY (REFERENCE ONLY):",
      history,
      "========================",
      "",
      "CURRENT VISIT TRANSCRIPT (SOURCE OF TRUTH):",
      transcript,
      "========================" ]

/-! ## History store (`app/services/rag_engine.py`)

The ChromaDB client is external; its state is modelled as a list of stored
`(patient_key, document)` entries plus the module-level `_rag_disabled`
flag, and its possible failures (initialisation, `add`, `query`) as Boolean
oracle arguments. -/

def FALLBACK : String := "No previous medical history available."

structure RagEntry where
  patient_key : String
  document : String
deriving DecidableEq

structure RagState where
  disabled : Bool := false
  entries : List RagEntry := []
deriving DecidableEq

/-- `build_patient_key`. -/
def build_patient_key (doctor_id patient_id : Nat) : String :=
  toString doctor_id ++ "_" ++ toString patient_id

/-- `get_collection`: `None` while disabled; an initialisation failure
switches the module into disabled mode for the rest of the process and
also yields `None`. -/
def get_collection (st : RagState) (initFails : Bool) : Option Unit × RagState :=
  if st.disabled then (none, st)
  else if initFails then (none, { st with disabled := true })
  else (some (), st)

/-- `store_note_embedding`: skipped (without error) when the collection is
unavailable or when the text carries the internal invalid-output marker;
otherwise the document built from the visit date, ids and note text is
added, and a failure of the backing-store `add` call escapes as an
exception (`.error`). -/
def store_note_embedding (st : RagState) (initFails addFails : Bool)
    (visitDate : String) (doctor_id patient_id : Nat) (soap_note : String)
    (_note_id : Nat) : Except Unit RagState :=
  match get_collection st initFails with
  | (none, st1) => .ok st1
  | (some _, st1) =>
    if pyContains "INVALID SOAP OUTPUT".toList soap_note.toList then .ok st1
    else
      let document_text : String :=
        ⟨pyStrip ("Visit Date: " ++ visitDate ++ "\nDoctor ID: " ++ toString doctor_id
          ++ "\nPatient ID: " ++ toString patient_id ++ "\n\nSOAP NOTE:\n"
          ++ soap_note).toList⟩
      if addFails then .error ()
      else .ok { st1 with
        entries := st1.entries ++ [⟨build_patient_key doctor_id patient_id, document_text⟩] }

/-- Python `sep.join(docs)`. -/
def pyJoin (sep : String) : List String → String
  | [] => ""
  | [d] => d
  | d :: ds => d ++ sep ++ pyJoin sep ds

/-- The documents a successful ChromaDB query hands back for a patient key.
Modelled from the spec (§4.3): the backing store returns up to `n_results`
most relevant prior entries for the exact `(author, subject)` composite key;
relevance order is abstracted as storage order. -/
def queryDocs (st : RagState) (key : String) (n_results : Nat) : List String :=
  ((st.entries.filter (fun e => e.patient_key = key)).map (·.document)).take n_results

/-- `retrieve_patient_history`: the fallback phrase when the collection is
unavailable, when the query raises, or when no documents come back;
otherwise the retrieved documents joined with the visible separator. -/
def retrieve_patient_history (st : RagState) (initFails queryFails : Bool)
    (doctor_id patient_id : Nat) (n_results : Nat := 2) : String :=
  match get_collection st initFails with
  | (none, _) => FALLBACK
  | (some _, st1) =>
    if queryFails then FALLBACK
    else
      let docs := queryDocs st1 (build_patient_key doctor_id patient_id) n_results
      if docs.isEmpty then FALLBACK
      else pyJoin "\n---\n" docs

/-! ## Background task (`process_transcript_task` in `app/services/llm_engine.py`)

The two possible LLM calls are oracle arguments (`.error` models a raised
provider error such as a transport failure or a bad response status;
`.ok raw` a returned completion).  The result records every commit that
writes the note row, in order, plus whether `store_note_embedding` was
invoked, so that the final status AND any intermediate committed state are
visible to the theorems. -/

def GENERIC_FAIL : String := "Generation failed due to an internal error."

/-- `if "SUBJECTIVE:" in note: note = note[note.find("SUBJECTIVE:"):]` —
the model may emit preamble before the first marker, which is stripped. -/
def stripPreamble (note : String) : String :=
  match pyFind SUBJECTIVE note.toList with
  | some i => ⟨note.toList.drop i⟩
  | none => note

structure TaskCommit where
  status : String
  content : String
deriving DecidableEq

structure TaskResult where
  commits : List TaskCommit
  storeCalled : Bool
  promptUsed : String
deriving DecidableEq

/-- The status of the note row after the task ran: the last committed write,
or the placeholder status if nothing was committed. -/
def TaskResult.final (tr : TaskResult) : TaskCommit :=
  tr.commits.getLastD ⟨"PROCESSING", "AI is generating your note. Please wait..."⟩

/-- The prompt the task sends to the LLM: built from the retrieved history
and `data.transcript_text` — the transcript text of the original request
object, not the sanitized copy persisted in the transcript row. -/
def taskPrompt (history : String) (data : TranscriptCreate) : String :=
  build_prompt history data.transcript_text

/-- `process_transcript_task`, for a note that exists.  Control flow of the
source: first LLM call; preamble strip; validate; on invalid output one
retry (new call, strip, re-validate); commit `COMPLETED`/`FAILED` with the
validated text or the diagnostic string; on `COMPLETED`, store the
embedding.  Any raised exception (either LLM call, or the store call)
reaches the `except` handler, which rolls back the uncommitted session
state and then commits status `FAILED` with the generic message. -/
def process_transcript_task (data : TranscriptCreate) (history : String)
    (llm1 llm2 : String → Except Unit String) (storeFails : Bool) : TaskResult :=
  let prompt := taskPrompt history data
  let afterValid : String → TaskResult := fun note =>
    if storeFails then
      -- the `COMPLETED` commit has already happened; the store exception
      -- sends control to the handler, which commits `FAILED` on top of it
      ⟨[⟨"COMPLETED", note⟩, ⟨"FAILED", GENERIC_FAIL⟩], true, prompt⟩
    else ⟨[⟨"COMPLETED", note⟩], true, prompt⟩
  match llm1 prompt with
  | .error _ => ⟨[⟨"FAILED", GENERIC_FAIL⟩], false, prompt⟩
  | .ok raw1 =>
    let note1 := stripPreamble raw1
    let v1 := validate_soap_output note1
    if v1.1 then afterValid note1
    else
      -- the single retry re-issues the LLM call with the identical prompt
      match llm2 prompt with
      | .error _ => ⟨[⟨"FAILED", GENERIC_FAIL⟩], false, prompt⟩
      | .ok raw2 =>
        let note2 := stripPreamble raw2
        let v2 := validate_soap_output note2
        if v2.1 then afterValid note2
        else ⟨[⟨"FAILED", "INVALID SOAP OUTPUT: " ++ v2.2⟩], false, prompt⟩

/-! ## Specification-side predicates and sample data -/

/-- The acceptance conditions of the spec (§4.2) for the stripped text:
starts with the first marker; all four markers present; first occurrences
in order; no forbidden formatting; every section body non-empty after
trimming. -/
def specSOAPOk (clean : List Char) : Prop :=
  SUBJECTIVE.isPrefixOf clean = true ∧
  (∀ m ∈ REQUIRED_SECTIONS, pyContains m clean = true) ∧
  (sectionPos clean SUBJECTIVE ≤ sectionPos clean OBJECTIVE ∧
    sectionPos clean OBJECTIVE ≤ sectionPos clean ASSESSMENT ∧
    sectionPos clean ASSESSMENT ≤ sectionPos clean PLAN) ∧
  hasForbidden true clean = false ∧
  (sectionContent clean SUBJECTIVE (sectionPos clean OBJECTIVE) ≠ [] ∧
    sectionContent clean OBJECTIVE (sectionPos clean ASSESSMENT) ≠ [] ∧
    sectionContent clean ASSESSMENT (sectionPos clean PLAN) ≠ [] ∧
    sectionContent clean PLAN clean.length ≠ [])

/-- The per-author uniqueness invariant of §3: no two notes of the same
author share a sequence number. -/
def PerAuthorUnique (notes : List NoteRec) : Prop :=
  List.Pairwise
    (fun a b => a.doctor_id = b.doctor_id → a.doctor_soap_number ≠ b.doctor_soap_number)
    notes

/-- Every stored history document is a non-empty string (true of everything
`store_note_embedding` writes). -/
def RagWF (st : RagState) : Prop :=
  ∀ e ∈ st.entries, e.document ≠ ""

/-- A well-formed four-section completion used as concrete test data. -/
def sampleSOAP : String :=
  "SUBJECTIVE: fever for two days\nOBJECTIVE: temperature 38C\nASSESSMENT: viral infection\nPLAN: rest and fluids"

/-- A completion with markdown bullets, rejected by the validator. -/
def badSOAP : String :=
  "SUBJECTIVE: a\n- bullet\nOBJECTIVE: b\nASSESSMENT: c\nPLAN: d"

/-- The all-absent completion: every section body is the sentinel phrase. -/
def allAbsentSOAP : String :=
  "SUBJECTIVE: Not mentioned.\nOBJECTIVE: Not mentioned.\nASSESSMENT: Not mentioned.\nPLAN: Not mentioned."

/-! ## Normal forms for idempotence of the sanitizer

Each transformation stage of the sanitizer has a decidable fixed-point
characterisation: the Boolean predicates below say that a string is already
in the normal form the corresponding stage produces. -/

/-- Word-character status of the character preceding the scan position
(start of text counts as a non-word position). -/
def prevW : Option Char → Bool
  | none => false
  | some c => isWordChar c

/-- No position of the text matches the rule (`prev` again being the
character before the first position). -/
def noMatchB (r : Rule) : Option Char → List Char → Bool
  | _, [] => true
  | prev, c :: cs => !(matchAt r prev (c :: cs)) && noMatchB r (some c) cs

/-- The whitespace prefix of the text contains no newline. -/
def wsNlFree (l : List Char) : Bool :=
  !((l.takeWhile pyWs).contains '\n')

/-- No blank-line run: after every newline, the following whitespace run
contains no further newline (the fixed points of `collapseBlanks`). -/
def nbOK : List Char → Bool
  | [] => true
  | c :: cs => (if c = '\n' then wsNlFree cs else true) && nbOK cs

def headIsSpace (l : List Char) : Bool := decide (l.head? = some ' ')

/-- No tab and no two adjacent spaces (the fixed points of
`collapseSpaces`). -/
def spOK : List Char → Bool
  | [] => true
  | c :: cs => !(c = '\t') && !(c = ' ' && headIsSpace cs) && spOK cs

/-- The first character, if any, is not whitespace. -/
def headNotWs (l : List Char) : Prop :=
  ∀ c, l.head? = some c → pyWs c = false

/-- The last character, if any, is not whitespace. -/
def lastNotWs (l : List Char) : Prop :=
  ∀ c, l.getLast? = some c → pyWs c = false

/-- The conjunction of the whitespace normal forms established by the
sanitizer pipeline: non-empty, trimmed at both ends, no carriage return,
no blank-line run, no tab and no double space. -/
def wsClean (l : List Char) : Prop :=
  l ≠ [] ∧ headNotWs l ∧ lastNotWs l ∧ '\r' ∉ l ∧ nbOK l = true ∧ spOK l = true

/-! # Theorems -/

/-- Every branch of the task uses the one prompt built from the request
object text. -/
theorem promptUsed_eq (data : TranscriptCreate) (h : String)
    (l1 l2 : String → Except Unit String) (sf : Bool) :
    (process_transcript_task data h l1 l2 sf).promptUsed
      = build_prompt h data.transcript_text := by
  dsimp only [process_transcript_task, taskPrompt]
  cases l1 (build_prompt h data.transcript_text) with
  | error e => rfl
  | ok raw1 =>
    dsimp only
    split
    · split <;> rfl
    · cases l2 (build_prompt h data.transcript_text) with
      | error e => rfl
      | ok raw2 =>
        dsimp only
        split
        · split <;> rfl
        · rfl

theorem insertNote_eq (db : DB) (note : NoteRec) :
    insertNote db note
      = if seqTaken db.notes note.doctor_id note.doctor_soap_number then .error ()
        else .ok { db with notes := note :: db.notes } := rfl

/-- Inversion of a completed `submitRest`: what it commits and schedules. -/
theorem submitRest_ok {db1 : DB} {uid : Nat} {req : TranscriptCreate}
    {patient : PatientRec} {resp : GenerateResponse} {args : TaskArgs} {db' : DB}
    (h : submitRest db1 uid req patient = .ok (db', resp, args)) :
    args = ⟨req, uid, db1.notes.length⟩ ∧
    resp.status = "PROCESSING" ∧ resp.id = db1.notes.length ∧
    db'.notes = ⟨db1.notes.length, db1.transcripts.length, uid, maxSeq db1.notes uid + 1,
      "PROCESSING", "AI is generating your note. Please wait..."⟩ :: db1.notes ∧
    db'.transcripts = ⟨db1.transcripts.length, uid, patient.id,
      sanitize_transcript req.transcript_text⟩ :: db1.transcripts ∧
    seqTaken db1.notes uid (maxSeq db1.notes uid + 1) = false := by
  simp only [submitRest] at h
  split at h
  · simp at h
  · next db3 heq =>
    simp only [Except.ok.injEq, Prod.mk.injEq] at h
    obtain ⟨hdb3, hresp, hargs⟩ := h
    rw [insertNote_eq] at heq
    split at heq
    · simp at heq
    · next hseq =>
      simp only [Except.ok.injEq] at heq
      subst heq
      subst hdb3
      exact ⟨hargs.symm, by simp [← hresp], by simp [← hresp], rfl, rfl, by
        simpa using hseq⟩

/-- Inversion of a successful `POST /Generate`: what the endpoint commits
and what it schedules. -/
theorem submit_ok_inversion {db : DB} {uid : Nat} {req : TranscriptCreate}
    {resp : GenerateResponse} {args : TaskArgs} {db' : DB}
    (h : generate_soap_notes db uid req = (.ok (resp, args), db')) :
    args.data = req ∧ args.soap_id = db.notes.length ∧
    resp.status = "PROCESSING" ∧ resp.id = db.notes.length ∧
    (∃ tid,
      db'.notes = ⟨db.notes.length, tid, uid, maxSeq db.notes uid + 1, "PROCESSING",
        "AI is generating your note. Please wait..."⟩ :: db.notes) ∧
    (∃ t ∈ db'.transcripts, t.text = sanitize_transcript req.transcript_text) ∧
    seqTaken db.notes uid (maxSeq db.notes uid + 1) = false := by
  unfold generate_soap_notes at h
  split at h
  · next db3 resp0 args0 heq =>
    simp only [Prod.mk.injEq, Except.ok.injEq] at h
    obtain ⟨⟨hresp, hargs⟩, hdb⟩ := h
    subst hresp; subst hargs; subst hdb
    unfold generate_soap_notes_inner at heq
    split at heq
    · simp at heq
    · split at heq
      · next patient hfind =>
        obtain ⟨hargs, hst, hid, hn, ht, hseq⟩ := submitRest_ok heq
        refine ⟨by rw [hargs], by rw [hargs], hst, hid, ⟨_, hn⟩,
          ⟨_, by rw [ht]; exact List.mem_cons_self _ _, rfl⟩, hseq⟩
      · obtain ⟨hargs, hst, hid, hn, ht, hseq⟩ := submitRest_ok heq
        refine ⟨by rw [hargs], by rw [hargs], hst, hid, ⟨_, hn⟩,
          ⟨_, by rw [ht]; exact List.mem_cons_self _ _, rfl⟩, hseq⟩
  · simp at h

/-- A list whose strip is empty is all whitespace. -/
theorem pyStrip_eq_nil {l : List Char} (h : pyStrip l = []) : ∀ c ∈ l, pyWs c = true := by
  unfold pyStrip at h
  rw [List.reverse_eq_nil_iff, List.dropWhile_eq_nil_iff] at h
  intro c hc
  rcases List.mem_append.mp ((@List.takeWhile_append_dropWhile _ pyWs l) ▸ hc) with
    hm | hm
  · exact List.mem_takeWhile_imp hm
  · exact h c (List.mem_reverse.mpr hm)

/-- Joining a list whose head is a non-empty string is non-empty. -/
theorem pyJoin_ne_empty (sep : String) (d : String) (ds : List String) (hd : d ≠ "") :
    pyJoin sep (d :: ds) ≠ "" := by
  cases ds with
  | nil => simpa [pyJoin] using hd
  | cons e t =>
    show d ++ sep ++ pyJoin sep (e :: t) ≠ ""
    intro h
    apply hd
    have hl := congrArg String.length h
    simp [String.length_append] at hl
    apply String.ext
    simpa using List.length_eq_zero.mp (show d.data.length = 0 from hl.1.1)

/-- C5: the validator returns `(true, "Valid SOAP")` exactly when, on the
stripped text, all of the claimed checks pass: it starts with
`SUBJECTIVE:`; all four markers occur, with first occurrences in order; no
forbidden formatting pattern (bullet dash, bullet asterisk, numbered list,
code fence, markdown heading) matches; and every section body is non-empty
after trimming.  In particular the all-absent completion, whose every
section content is exactly `Not mentioned.`, is accepted. -/
theorem C5_validate_iff :
    (∀ t : String,
      validate_soap_output t = (true, "Valid SOAP") ↔ specSOAPOk (pyStrip t.toList)) ∧
    validate_soap_output allAbsentSOAP = (true, "Valid SOAP") := by
  have chain : ∀ clean : List Char,
      validateChain clean = (true, "Valid SOAP") ↔ specSOAPOk clean := by
    intro clean
    unfold validateChain specSOAPOk
    by_cases h1 : SUBJECTIVE.isPrefixOf clean = true
    case neg =>
      rw [if_pos h1]
      exact iff_of_false (by simp) (fun hs => h1 hs.1)
    rw [if_neg (not_not_intro h1)]
    by_cases h2 : pyContains SUBJECTIVE clean = true
    case neg =>
      rw [if_pos h2]
      exact iff_of_false (by simp)
        (fun hs => h2 (hs.2.1 SUBJECTIVE (by simp [REQUIRED_SECTIONS])))
    rw [if_neg (not_not_intro h2)]
    by_cases h3 : pyContains OBJECTIVE clean = true
    case neg =>
      rw [if_pos h3]
      exact iff_of_false (by simp)
        (fun hs => h3 (hs.2.1 OBJECTIVE (by simp [REQUIRED_SECTIONS])))
    rw [if_neg (not_not_intro h3)]
    by_cases h4 : pyContains ASSESSMENT clean = true
    case neg =>
      rw [if_pos h4]
      exact iff_of_false (by simp)
        (fun hs => h4 (hs.2.1 ASSESSMENT (by simp [REQUIRED_SECTIONS])))
    rw [if_neg (not_not_intro h4)]
    by_cases h5 : pyContains PLAN clean = true
    case neg =>
      rw [if_pos h5]
      exact iff_of_false (by simp)
        (fun hs => h5 (hs.2.1 PLAN (by simp [REQUIRED_SECTIONS])))
    rw [if_neg (not_not_intro h5)]
    by_cases h6 : sectionPos clean SUBJECTIVE ≤ sectionPos clean OBJECTIVE ∧
        sectionPos clean OBJECTIVE ≤ sectionPos clean ASSESSMENT ∧
        sectionPos clean ASSESSMENT ≤ sectionPos clean PLAN
    case neg =>
      rw [if_pos h6]
      exact iff_of_false (by simp) (fun hs => h6 hs.2.2.1)
    rw [if_neg (not_not_intro h6)]
    by_cases h7 : hasForbidden true clean = true
    case pos =>
      rw [if_pos h7]
      exact iff_of_false (by simp) (fun hs => by simp [hs.2.2.2.1] at h7)
    rw [if_neg h7]
    by_cases h8 : sectionContent clean SUBJECTIVE (sectionPos clean OBJECTIVE) = []
    case pos =>
      rw [if_pos h8]
      exact iff_of_false (by simp) (fun hs => hs.2.2.2.2.1 h8)
    rw [if_neg h8]
    by_cases h9 : sectionContent clean OBJECTIVE (sectionPos clean ASSESSMENT) = []
    case pos =>
      rw [if_pos h9]
      exact iff_of_false (by simp) (fun hs => hs.2.2.2.2.2.1 h9)
    rw [if_neg h9]
    by_cases h10 : sectionContent clean ASSESSMENT (sectionPos clean PLAN) = []
    case pos =>
      rw [if_pos h10]
      exact iff_of_false (by simp) (fun hs => hs.2.2.2.2.2.2.1 h10)
    rw [if_neg h10]
    by_cases h11 : sectionContent clean PLAN clean.length = []
    case pos =>
      rw [if_pos h11]
      exact iff_of_false (by simp) (fun hs => hs.2.2.2.2.2.2.2 h11)
    rw [if_neg h11]
    refine iff_of_true rfl
      ⟨h1, ?_, h6, by simpa using h7, h8, h9, h10, h11⟩
    intro m hm
    simp only [REQUIRED_SECTIONS, List.mem_cons, List.not_mem_nil, or_false] at hm
    rcases hm with rfl | rfl | rfl | rfl
    · exact h2
    · exact h3
    · exact h4
    · exact h5
  constructor
  · intro t
    unfold validate_soap_output
    by_cases h0 : pyStrip t.toList = []
    · rw [if_pos h0, h0]
      constructor
      · intro h; exact absurd h (by decide)
      · intro h; exact absurd h.1 (by decide)
    · rw [if_neg h0]
      exact chain _
  · rw [show validate_soap_output allAbsentSOAP
        = validateChain (pyStrip allAbsentSOAP.toList) from rfl]
    decide

/-- C6, counterexample: the sanitizer does not produce the lower-case
`"complains"` the claim demands — the expansion text keeps the fixed
capitalisation of the replacement table (`C/O → "Complains of"`). -/
theorem C6_counterexample :
    sanitize_transcript "Pt c/o fever x2 days" ≠ "Patient: complains of fever x2 days" := by
  decide

/-- C6 (amended): the sanitizer applies the fixed case-insensitive shorthand
expansions on word boundaries, and on the spec example it yields exactly
`"Patient: Complains of fever x2 days"` — with the capital `C` of the fixed
replacement text `"Complains of"`. -/
theorem C6_sanitize_expansions :
    sanitize_transcript "Pt c/o fever x2 days" = "Patient: Complains of fever x2 days" ∧
    sanitize_transcript "pt" = "Patient:" ∧
    sanitize_transcript "PT:" = "Patient:" ∧
    sanitize_transcript "DR" = "Doctor:" ∧
    sanitize_transcript "hx" = "History" ∧
    sanitize_transcript "C/o" = "Complains of" ∧
    sanitize_transcript "xPt" = "xPt" ∧
    sanitize_transcript "Pt1" = "Pt1" := by
  decide

/-- C9: with `age` absent the endpoint means to reject with
`HTTPException(400, "Age is required.")` — and its `try:` body does raise
exactly that — but the blanket `except Exception` catches the 400 and
re-raises a generic `HTTPException(500, "Failed to submit transcript")`,
so the caller sees an internal server error, not a client error.  No
patient, transcript or note row is created (the database is returned
unchanged). -/
theorem C9_missing_age_becomes_500 :
    generate_soap_notes_inner ⟨[], [], []⟩ 1
        ⟨some "Jane Doe", none, "Pt c/o fever x2 days"⟩
      = .error ⟨400, "Age is required."⟩ ∧
    generate_soap_notes ⟨[], [], []⟩ 1
        ⟨some "Jane Doe", none, "Pt c/o fever x2 days"⟩
      = (.error ⟨500, "Failed to submit transcript"⟩, ⟨[], [], []⟩) := by
  constructor
  · rfl
  · rfl

/-- C2, counterexample: the gateway raises a provider error on the first
call and a retry would return a valid completion, yet the note ends
`FAILED`, not `COMPLETED` — a raised provider error is caught by the
task-boundary handler and never retried. -/
theorem C2_counterexample :
    (validate_soap_output sampleSOAP).1 = true ∧
    (process_transcript_task ⟨some "Jane Doe", some 30, "t"⟩ "h"
        (fun _ => .error ()) (fun _ => .ok sampleSOAP) false).final.status = "FAILED" := by
  decide

/-- C2 (amended): a provider error on the first LLM call is not retried —
the task commits `FAILED` with the generic internal-error message no matter
what a second call would return, and the store is never invoked.  The
single retry exists only for validation failure: when the first call
returns output that fails validation and the retried call returns a valid
completion, the note ends `COMPLETED` with that second output. -/
theorem C2_provider_error_fails_validation_failure_retries
    (data : TranscriptCreate) (history : String)
    (llm2 : String → Except Unit String) (storeFails : Bool)
    (raw1 raw2 : String)
    (h1 : (validate_soap_output (stripPreamble raw1)).1 = false)
    (h2 : (validate_soap_output (stripPreamble raw2)).1 = true) :
    (process_transcript_task data history (fun _ => .error ()) llm2 storeFails).commits
      = [⟨"FAILED", GENERIC_FAIL⟩] ∧
    (process_transcript_task data history (fun _ => .error ()) llm2 storeFails).storeCalled
      = false ∧
    (process_transcript_task data history (fun _ => .ok raw1) (fun _ => .ok raw2)
        false).final
      = ⟨"COMPLETED", stripPreamble raw2⟩ := by
  refine ⟨rfl, rfl, ?_⟩
  simp [process_transcript_task, h1, h2, TaskResult.final]

theorem C2_provider_error_fails_validation_failure_retries_witness :
    (validate_soap_output (stripPreamble badSOAP)).1 = false ∧
    (validate_soap_output (stripPreamble sampleSOAP)).1 = true ∧
    (process_transcript_task ⟨some "Jane Doe", some 30, "t"⟩ "h"
        (fun _ => .ok badSOAP) (fun _ => .ok sampleSOAP) false).final
      = ⟨"COMPLETED", stripPreamble sampleSOAP⟩ :=
  ⟨by decide, by decide,
    (C2_provider_error_fails_validation_failure_retries
      ⟨some "Jane Doe", some 30, "t"⟩ "h" (fun _ => .ok sampleSOAP) false
      badSOAP sampleSOAP (by decide) (by decide)).2.2⟩

/-- C3: the claim states the intended behaviour (a retrieval-store failure
must never alter a committed `COMPLETE` note), and the code violates it:
`store_note_embedding` guards collection initialisation but not
`collection.add`, so an `add` failure raises out of the store call into the
task's `except` handler, which overwrites the already committed
`COMPLETED` status with `FAILED` and the generic message.  The store model
shows the raising path is reachable exactly when the backing-store add
fails. -/
theorem C3_store_failure_overwrites_completed :
    (process_transcript_task ⟨some "Jane Doe", some 30, "t"⟩ "h"
        (fun _ => .ok sampleSOAP) (fun _ => .ok sampleSOAP) true).commits
      = [⟨"COMPLETED", sampleSOAP⟩, ⟨"FAILED", GENERIC_FAIL⟩] ∧
    (process_transcript_task ⟨some "Jane Doe", some 30, "t"⟩ "h"
        (fun _ => .ok sampleSOAP) (fun _ => .ok sampleSOAP) true).final.status
      = "FAILED" ∧
    store_note_embedding ⟨false, []⟩ false true "2026-10-12" 1 2 sampleSOAP 7
      = .error () := by
  refine ⟨by decide, by decide, rfl⟩

/-- C8 (amended): every placeholder note created by a successful submit has
status `"PROCESSING"` (not `"PENDING"`), the synchronous response reports
`"PROCESSING"`, and the only statuses the pipeline ever writes afterwards
are `"COMPLETED"` and `"FAILED"` — so a note status is always one of
`PROCESSING`, `COMPLETED`, `FAILED`. -/
theorem C8_status_values :
    (∀ (db : DB) (uid : Nat) (req : TranscriptCreate) (resp : GenerateResponse)
        (args : TaskArgs) (db' : DB),
      generate_soap_notes db uid req = (.ok (resp, args), db') →
      resp.status = "PROCESSING" ∧
      ∃ n ∈ db'.notes, n.id = resp.id ∧ n.status = "PROCESSING") ∧
    (∀ (data : TranscriptCreate) (history : String)
        (l1 l2 : String → Except Unit String) (sf : Bool) (c : TaskCommit),
      c ∈ (process_transcript_task data history l1 l2 sf).commits →
      c.status = "COMPLETED" ∨ c.status = "FAILED") := by
  constructor
  · intro db uid req resp args db' h
    obtain ⟨-, -, hst, hid, ⟨tid, hn⟩, -, -⟩ := submit_ok_inversion h
    exact ⟨hst, ⟨_, by rw [hn]; exact List.mem_cons_self _ _, by rw [hid], rfl⟩⟩
  · intro data history l1 l2 sf c hc
    dsimp only [process_transcript_task] at hc
    revert hc
    cases l1 (taskPrompt history data) with
    | error e => intro hc; simp at hc; subst hc; simp
    | ok raw1 =>
      dsimp only
      split
      · split
        · intro hc; simp at hc; rcases hc with rfl | rfl <;> simp
        · intro hc; simp at hc; subst hc; simp
      · cases l2 (taskPrompt history data) with
        | error e => intro hc; simp at hc; subst hc; simp
        | ok raw2 =>
          dsimp only
          split
          · split
            · intro hc; simp at hc; rcases hc with rfl | rfl <;> simp
            · intro hc; simp at hc; subst hc; simp
          · intro hc; simp at hc; subst hc; simp

theorem C8_status_values_witness :
    generate_soap_notes ⟨[], [], []⟩ 1 ⟨some "Jane Doe", some 30, "hello"⟩
      = (.ok (⟨0, 1, some "Jane Doe", "PROCESSING", "Note generation started."⟩,
          ⟨⟨some "Jane Doe", some 30, "hello"⟩, 1, 0⟩),
         ⟨[⟨0, 1, some "Jane Doe", 30, none⟩], [⟨0, 1, 0, "hello"⟩],
          [⟨0, 0, 1, 1, "PROCESSING", "AI is generating your note. Please wait..."⟩]⟩) ∧
    (⟨0, 1, some "Jane Doe", "PROCESSING", "Note generation started."⟩ :
        GenerateResponse).status = "PROCESSING" :=
  ⟨by rfl, (C8_status_values.1 ⟨[], [], []⟩ 1 ⟨some "Jane Doe", some 30, "hello"⟩
      ⟨0, 1, some "Jane Doe", "PROCESSING", "Note generation started."⟩
      ⟨⟨some "Jane Doe", some 30, "hello"⟩, 1, 0⟩
      ⟨[⟨0, 1, some "Jane Doe", 30, none⟩], [⟨0, 1, 0, "hello"⟩],
       [⟨0, 0, 1, 1, "PROCESSING", "AI is generating your note. Please wait..."⟩]⟩
      (by rfl)).1⟩

/-- C8, counterexample: the placeholder status reported by a successful
submission is the literal string `"PROCESSING"`, not `"PENDING"`. -/
theorem C8_counterexample :
    ((generate_soap_notes ⟨[], [], []⟩ 1 ⟨some "Jane Doe", some 30, "hello"⟩).1.toOption.map
        (fun ra => ra.1.status)) = some "PROCESSING" ∧
    ("PROCESSING" : String) ≠ "PENDING" := by
  decide

/-- C1 (amended): the transcript text the orchestrator embeds in the LLM
prompt is the raw `transcript_text` of the triggering request — the request
object is handed to the background task unchanged, so `build_prompt`
receives the un-sanitized submission text.  The sanitized form reaches only
the persisted transcript row. -/
theorem C1_prompt_embeds_raw_request_text (db : DB) (uid : Nat)
    (req : TranscriptCreate) (resp : GenerateResponse) (args : TaskArgs) (db' : DB)
    (h : generate_soap_notes db uid req = (.ok (resp, args), db')) :
    args.data.transcript_text = req.transcript_text ∧
    (∃ t ∈ db'.transcripts, t.text = sanitize_transcript req.transcript_text) ∧
    ∀ (history : String) (l1 l2 : String → Except Unit String) (sf : Bool),
      (process_transcript_task args.data history l1 l2 sf).promptUsed
        = build_prompt history req.transcript_text := by
  obtain ⟨hdata, -, -, -, -, ht, -⟩ := submit_ok_inversion h
  exact ⟨by rw [hdata], ht, fun history l1 l2 sf => by
    rw [promptUsed_eq, hdata]⟩

theorem C1_prompt_embeds_raw_request_text_witness :
    generate_soap_notes ⟨[], [], []⟩ 1 ⟨some "Jane Doe", some 30, "Pt c/o fever x2 days"⟩
      = (.ok (⟨0, 1, some "Jane Doe", "PROCESSING", "Note generation started."⟩,
          ⟨⟨some "Jane Doe", some 30, "Pt c/o fever x2 days"⟩, 1, 0⟩),
         ⟨[⟨0, 1, some "Jane Doe", 30, none⟩],
          [⟨0, 1, 0, "Patient: Complains of fever x2 days"⟩],
          [⟨0, 0, 1, 1, "PROCESSING", "AI is generating your note. Please wait..."⟩]⟩) ∧
    (⟨⟨some "Jane Doe", some 30, "Pt c/o fever x2 days"⟩, 1, 0⟩ :
        TaskArgs).data.transcript_text = "Pt c/o fever x2 days" :=
  ⟨by rfl, (C1_prompt_embeds_raw_request_text ⟨[], [], []⟩ 1
      ⟨some "Jane Doe", some 30, "Pt c/o fever x2 days"⟩
      ⟨0, 1, some "Jane Doe", "PROCESSING", "Note generation started."⟩
      ⟨⟨some "Jane Doe", some 30, "Pt c/o fever x2 days"⟩, 1, 0⟩
      ⟨[⟨0, 1, some "Jane Doe", 30, none⟩],
       [⟨0, 1, 0, "Patient: Complains of fever x2 days"⟩],
       [⟨0, 0, 1, 1, "PROCESSING", "AI is generating your note. Please wait..."⟩]⟩
      (by rfl)).1⟩

/-- Prepending a note whose `(author, number)` pair is free keeps per-author
sequence numbers pairwise distinct. -/
theorem seqTaken_false_cons {notes : List NoteRec} {note : NoteRec}
    (hseq : seqTaken notes note.doctor_id note.doctor_soap_number = false)
    (hinv : PerAuthorUnique notes) : PerAuthorUnique (note :: notes) := by
  refine List.Pairwise.cons ?_ hinv
  intro b hb hd hnum
  have := List.any_eq_false.mp hseq b hb
  simp [hd, hnum] at this

/-- C4 (amended): per-author uniqueness of sequence numbers is enforced at
the storage layer (the unique constraint on
`(doctor_id, doctor_soap_number)`, modelled as the insert guard): every
insert that commits — under any interleaving — preserves the invariant that
no two notes of the same author share a sequence number, and in particular
every successful submission preserves it.  What the original claim adds —
that `N` concurrent submissions always yield `N` notes with gap-free
distinct numbers — fails: when the max-plus-one reads collide, the second
insert violates the constraint and that submission errors out (see the
counterexample). -/
theorem C4_storage_uniqueness :
    (∀ (db : DB) (note : NoteRec) (db' : DB),
      insertNote db note = .ok db' →
      PerAuthorUnique db.notes → PerAuthorUnique db'.notes) ∧
    (∀ (db : DB) (uid : Nat) (req : TranscriptCreate) (resp : GenerateResponse)
        (args : TaskArgs) (db' : DB),
      generate_soap_notes db uid req = (.ok (resp, args), db') →
      PerAuthorUnique db.notes → PerAuthorUnique db'.notes) := by
  constructor
  · intro db note db' h hinv
    rw [insertNote_eq] at h
    split at h
    · simp at h
    · next hseq =>
      simp only [Except.ok.injEq] at h
      subst h
      exact seqTaken_false_cons (Bool.not_eq_true _ ▸ hseq) hinv
  · intro db uid req resp args db' h hinv
    obtain ⟨-, -, -, -, ⟨tid, hn⟩, -, hseq⟩ := submit_ok_inversion h
    rw [hn]
    exact seqTaken_false_cons hseq hinv

theorem C4_storage_uniqueness_witness :
    insertNote ⟨[], [], []⟩ ⟨0, 0, 1, 1, "PROCESSING", "c"⟩
      = .ok ⟨[], [], [⟨0, 0, 1, 1, "PROCESSING", "c"⟩]⟩ ∧
    PerAuthorUnique ([] : List NoteRec) ∧
    PerAuthorUnique [(⟨0, 0, 1, 1, "PROCESSING", "c"⟩ : NoteRec)] :=
  ⟨by rfl, List.Pairwise.nil,
    C4_storage_uniqueness.1 ⟨[], [], []⟩ ⟨0, 0, 1, 1, "PROCESSING", "c"⟩
      ⟨[], [], [⟨0, 0, 1, 1, "PROCESSING", "c"⟩]⟩ (by rfl) List.Pairwise.nil⟩

/-- C4, counterexample: the race of §9.  Two concurrent submissions for
author 1 both read the sequence snapshot before either commit
(`maxSeq = 0`), so both allocate number 1; the first insert commits, the
second violates the storage constraint and is rejected — two submissions,
one note, rather than two notes with distinct gap-free numbers. -/
theorem C4_counterexample :
    maxSeq ([] : List NoteRec) 1 + 1 = 1 ∧
    insertNote ⟨[], [], []⟩ ⟨0, 0, 1, 1, "PROCESSING", "c"⟩
      = .ok ⟨[], [], [⟨0, 0, 1, 1, "PROCESSING", "c"⟩]⟩ ∧
    insertNote ⟨[], [], [⟨0, 0, 1, 1, "PROCESSING", "c"⟩]⟩ ⟨1, 1, 1, 1, "PROCESSING", "c"⟩
      = .error () ∧
    ([(⟨0, 0, 1, 1, "PROCESSING", "c"⟩ : NoteRec)].length = 1 ∧ 1 ≠ 2) :=
  ⟨rfl, rfl, rfl, rfl, by decide⟩

/-- C10: the history-store read never fails.  `store_note_embedding` only
ever records non-empty documents, and under that invariant
`retrieve_patient_history` is total and returns the fixed fallback phrase
when the collection is disabled or failed to initialise, when the query
errors, or when no entries exist for the exact `(author, subject)` key —
and otherwise the join, by the visible separator, of at most `n_results`
retrieved documents, which is never the empty string. -/
theorem C10_retrieve_total_never_empty :
    (∀ (st : RagState) (initF addFails : Bool) (date : String) (d p : Nat)
        (note : String) (nid : Nat) (st' : RagState),
      store_note_embedding st initF addFails date d p note nid = .ok st' →
      RagWF st → RagWF st') ∧
    (∀ (st : RagState) (initF queryF : Bool) (d p n : Nat), RagWF st →
      retrieve_patient_history st initF queryF d p n ≠ "" ∧
      ((st.disabled = true ∨ initF = true ∨ queryF = true) →
        retrieve_patient_history st initF queryF d p n = FALLBACK) ∧
      (queryDocs st (build_patient_key d p) n = [] →
        retrieve_patient_history st initF queryF d p n = FALLBACK) ∧
      (retrieve_patient_history st initF queryF d p n ≠ FALLBACK →
        retrieve_patient_history st initF queryF d p n
          = pyJoin "\n---\n" (queryDocs st (build_patient_key d p) n) ∧
        (queryDocs st (build_patient_key d p) n).length ≤ n ∧
        queryDocs st (build_patient_key d p) n ≠ [])) := by
  constructor
  · intro st initF addFails date d p note nid st' h hwf
    unfold store_note_embedding get_collection at h
    by_cases hd : st.disabled = true
    · rw [if_pos hd] at h
      simp only [Except.ok.injEq] at h
      subst h; exact hwf
    · rw [if_neg hd] at h
      by_cases hi : initF = true
      · rw [if_pos hi] at h
        simp only [Except.ok.injEq] at h
        subst h; exact hwf
      · rw [if_neg hi] at h
        dsimp only at h
        split at h
        · simp only [Except.ok.injEq] at h
          subst h; exact hwf
        · split at h
          · simp at h
          · simp only [Except.ok.injEq] at h
            subst h
            intro e he
            rcases List.mem_append.mp he with he | he
            · exact hwf e he
            · rcases List.mem_singleton.mp he with rfl
              dsimp only
              intro hcon
              have hall := pyStrip_eq_nil (l :=
                ("Visit Date: " ++ date ++ "\nDoctor ID: " ++ toString d
                  ++ "\nPatient ID: " ++ toString p ++ "\n\nSOAP NOTE:\n"
                  ++ note).toList) (by
                    have := congrArg String.data hcon
                    simpa using this)
              have hv : 'V' ∈ ("Visit Date: " ++ date ++ "\nDoctor ID: " ++ toString d
                  ++ "\nPatient ID: " ++ toString p ++ "\n\nSOAP NOTE:\n"
                  ++ note).toList := by
                show 'V' ∈ String.data _
                simp only [String.data_append]
                exact List.mem_append_left _ (List.mem_append_left _
                  (List.mem_append_left _ (List.mem_append_left _
                    (List.mem_append_left _ (List.mem_append_left _
                      (List.mem_append_left _ (by decide)))))))
              have := hall 'V' hv
              simp [pyWs] at this
  · intro st initF queryF d p n hwf
    by_cases hd : st.disabled = true
    · simp [retrieve_patient_history, get_collection, hd, FALLBACK]
    · by_cases hi : initF = true
      · simp [retrieve_patient_history, get_collection, hd, hi, FALLBACK]
      · by_cases hq : queryF = true
        · simp [retrieve_patient_history, get_collection, hd, hi, hq, FALLBACK]
        · by_cases hdocs : queryDocs st (build_patient_key d p) n = []
          · simp [retrieve_patient_history, get_collection, hd, hi, hq, hdocs, FALLBACK]
          · have hres : retrieve_patient_history st initF queryF d p n
                = pyJoin "\n---\n" (queryDocs st (build_patient_key d p) n) := by
              simp [retrieve_patient_history, get_collection, hd, hi, hq,
                List.isEmpty_iff, hdocs]
            obtain ⟨d0, ds, hcons⟩ := List.exists_cons_of_ne_nil hdocs
            have hd0 : d0 ≠ "" := by
              have hmem : d0 ∈ queryDocs st (build_patient_key d p) n := by
                rw [hcons]; exact List.mem_cons_self _ _
              unfold queryDocs at hmem
              have hmem2 := List.take_subset _ _ hmem
              obtain ⟨e, he, rfl⟩ := List.mem_map.mp hmem2
              exact hwf e (List.mem_filter.mp he).1
            refine ⟨?_, fun hor => ?_, fun h0 => absurd h0 hdocs, fun _ =>
              ⟨hres, ?_, hdocs⟩⟩
            · rw [hres, hcons]
              exact pyJoin_ne_empty _ _ _ hd0
            · rcases hor with h | h | h
              · exact absurd h hd
              · exact absurd h hi
              · exact absurd h hq
            · unfold queryDocs
              exact List.length_take_le _ _

theorem C10_retrieve_total_never_empty_witness :
    RagWF ⟨false, [⟨"1_2", "note text"⟩]⟩ ∧
    retrieve_patient_history ⟨false, [⟨"1_2", "note text"⟩]⟩ false false 1 2 2 ≠ "" :=
  ⟨fun e he => by rcases List.mem_singleton.mp he with rfl; decide,
    (C10_retrieve_total_never_empty.2 ⟨false, [⟨"1_2", "note text"⟩]⟩ false false 1 2 2
      (fun e he => by rcases List.mem_singleton.mp he with rfl; decide)).1⟩

/-- C1, counterexample: for the submission `"Pt c/o fever x2 days"`, the
request object handed to the background task still carries the raw text,
which differs from its sanitized form — so `build_prompt` embeds the raw
text, not `sanitize(raw)`; the sanitized copy only reaches the transcript
row. -/
theorem C1_counterexample :
    ((generate_soap_notes ⟨[], [], []⟩ 1
          ⟨some "Jane Doe", some 30, "Pt c/o fever x2 days"⟩).1.toOption.map
        (fun ra => ra.2.data.transcript_text)) = some "Pt c/o fever x2 days" ∧
    sanitize_transcript "Pt c/o fever x2 days" ≠ "Pt c/o fever x2 days" ∧
    (process_transcript_task ⟨some "Jane Doe", some 30, "Pt c/o fever x2 days"⟩ "h"
        (fun _ => .error ()) (fun _ => .error ()) false).promptUsed
      = build_prompt "h" "Pt c/o fever x2 days" := by
  refine ⟨by decide, by decide, rfl⟩

/-! ## Character-class facts -/

theorem toLower_of_nonword {c : Char} (h : isWordChar c = false) : c.toLower = c := by
  by_cases hr : c.toNat ≥ 65 ∧ c.toNat ≤ 90
  · exfalso
    have halpha : c.isAlpha = true := by
      unfold Char.isAlpha Char.isUpper
      have h1 : c.val ≥ 65 := by
        show (65 : UInt32).toNat ≤ c.val.toNat
        have := hr.1
        unfold Char.toNat at this
        simpa using this
      have h2 : c.val ≤ 90 := by
        show c.val.toNat ≤ (90 : UInt32).toNat
        have := hr.2
        unfold Char.toNat at this
        simpa using this
      simp [h1, h2]
    unfold isWordChar Char.isAlphanum at h
    simp [halpha] at h
  · simp [Char.toLower, hr]

theorem word_of_toLower {c t : Char} (h : c.toLower = t) (ht : isWordChar t = true) :
    isWordChar c = true := by
  by_contra hc
  rw [toLower_of_nonword (Bool.not_eq_true _ ▸ hc)] at h
  subst h
  simp [ht] at hc

theorem toNat_ofNat_valid (n : Nat) (h : n.isValidChar) : (Char.ofNat n).toNat = n := by
  unfold Char.ofNat
  rw [dif_pos h]
  unfold Char.ofNatAux Char.toNat
  simp [UInt32.toNat]

/-- Lower-casing never changes word-character status: it moves `A`–`Z`
to `a`–`z` and fixes everything else. -/
theorem isWordChar_toLower (c : Char) : isWordChar c.toLower = isWordChar c := by
  unfold Char.toLower
  by_cases hr : c.toNat ≥ 65 ∧ c.toNat ≤ 90
  · rw [if_pos hr]
    have hv : (c.toNat + 32).isValidChar := by
      unfold Nat.isValidChar
      left
      omega
    have h1 : (Char.ofNat (c.toNat + 32)).val.toNat = c.toNat + 32 := toNat_ofNat_valid _ hv
    have hlw : (Char.ofNat (c.toNat + 32)).isLower = true := by
      unfold Char.isLower
      have h97 : ((97 : UInt32) ≤ (Char.ofNat (c.toNat + 32)).val) := by
        show (97 : UInt32).toNat ≤ (Char.ofNat (c.toNat + 32)).val.toNat
        rw [h1, show (97 : UInt32).toNat = 97 from by decide]
        omega
      have h122 : ((Char.ofNat (c.toNat + 32)).val ≤ (122 : UInt32)) := by
        show (Char.ofNat (c.toNat + 32)).val.toNat ≤ (122 : UInt32).toNat
        rw [h1, show (122 : UInt32).toNat = 122 from by decide]
        omega
      simp [h97, h122]
    have hup : c.isUpper = true := by
      unfold Char.isUpper
      have h65 : ((65 : UInt32) ≤ c.val) := by
        show (65 : UInt32).toNat ≤ c.val.toNat
        rw [show (65 : UInt32).toNat = 65 from by decide]
        exact hr.1
      have h90 : (c.val ≤ (90 : UInt32)) := by
        show c.val.toNat ≤ (90 : UInt32).toNat
        rw [show (90 : UInt32).toNat = 90 from by decide]
        exact hr.2
      simp [h65, h90]
    unfold isWordChar Char.isAlphanum Char.isAlpha
    simp [hlw, hup]
  · rw [if_neg hr]

/-- A character lower-casing to a non-word character is that character. -/
theorem toLower_eq_nonword {c t : Char} (h : c.toLower = t) (ht : isWordChar t = false) :
    c = t := by
  by_cases hw : isWordChar c = true
  · exfalso
    have h2 := isWordChar_toLower c
    rw [h, ht, hw] at h2
    exact absurd h2 (by simp)
  · rw [toLower_of_nonword (by simpa using hw)] at h
    exact h

theorem pyWs_not_word {c : Char} (h : pyWs c = true) : isWordChar c = false := by
  unfold pyWs at h
  simp only [Bool.or_eq_true, decide_eq_true_eq] at h
  rcases h with ((((h | h) | h) | h) | h) | h <;> subst h <;> decide

/-! ## Unfolding the expansion scanner -/

theorem expandF_irrel (r : Rule) :
    ∀ (f1 f2 : Nat) (prev : Option Char) (cs : List Char),
      cs.length ≤ f1 → cs.length ≤ f2 → expandF r f1 prev cs = expandF r f2 prev cs := by
  intro f1
  induction f1 using Nat.strong_induction_on with
  | _ f1 ih =>
    intro f2 prev cs h1 h2
    match f1, f2, cs with
    | g1, g2, [] => cases g1 <;> cases g2 <;> rfl
    | 0, _, c :: cs => simp at h1
    | _ + 1, 0, c :: cs => simp at h2
    | g1 + 1, g2 + 1, c :: cs =>
      show expandF r (g1 + 1) prev (c :: cs) = expandF r (g2 + 1) prev (c :: cs)
      unfold expandF
      have hlen : (List.drop r.tok.length (c :: cs)).length ≤ g1 ∧
          (List.drop r.tok.length (c :: cs)).length ≤ g2 := by
        constructor <;> · simp [List.length_drop, Rule.tok] at *; omega
      have hlt : (List.drop r.tok.length (c :: cs)).tail.length ≤ g1 ∧
          (List.drop r.tok.length (c :: cs)).tail.length ≤ g2 := by
        constructor <;> · rw [List.length_tail]; omega
      split
      · split
        · rw [ih g1 (by omega) g2 _ _ hlt.1 hlt.2]
        · rw [ih g1 (by omega) g2 _ _ hlen.1 hlen.2]
      · rw [ih g1 (by omega) g2 _ _ (by simp at h1 ⊢; omega) (by simp at h2 ⊢; omega)]

theorem expandTok_nil (r : Rule) (prev : Option Char) : expandTok r prev [] = [] := rfl

theorem expandTok_cons_nomatch {r : Rule} {prev : Option Char} {c : Char} {cs : List Char}
    (h : matchAt r prev (c :: cs) = false) :
    expandTok r prev (c :: cs) = c :: expandTok r (some c) cs := by
  show expandF r (cs.length + 1) prev (c :: cs) = _
  unfold expandF
  rw [if_neg (by simp [h])]
  rfl

theorem expandTok_cons_colon {r : Rule} {prev : Option Char} {c : Char} {cs rest2 : List Char}
    (h : matchAt r prev (c :: cs) = true) (hco : r.optColon = true)
    (hrest : (c :: cs).drop r.tok.length = ':' :: rest2) :
    expandTok r prev (c :: cs) = r.repl ++ expandTok r (some ':') rest2 := by
  show expandF r (cs.length + 1) prev (c :: cs) = _
  unfold expandF
  rw [if_pos (show matchAt r prev (c :: cs) = true from h),
    if_pos (⟨hco, by rw [hrest]; rfl⟩ :
      r.optColon = true ∧ ((c :: cs).drop r.tok.length).head? = some ':')]
  have hlen : rest2.length ≤ cs.length := by
    have := congrArg List.length hrest
    simp [List.length_drop, Rule.tok] at this
    omega
  rw [hrest]
  show r.repl ++ expandF r cs.length (some ':') rest2 = _
  rw [expandF_irrel r cs.length rest2.length _ _ hlen (le_refl _)]
  rfl

theorem expandTok_cons_nocolon {r : Rule} {prev : Option Char} {c : Char} {cs : List Char}
    (h : matchAt r prev (c :: cs) = true)
    (hnc : r.optColon = false ∨ ((c :: cs).drop r.tok.length).head? ≠ some ':') :
    expandTok r prev (c :: cs)
      = r.repl ++ expandTok r (some (((c :: cs).take r.tok.length).getLastD c))
          ((c :: cs).drop r.tok.length) := by
  show expandF r (cs.length + 1) prev (c :: cs) = _
  unfold expandF
  rw [if_pos (show matchAt r prev (c :: cs) = true from h),
    if_neg (show ¬(r.optColon = true ∧ ((c :: cs).drop r.tok.length).head? = some ':') by
      rintro ⟨hc1, hc2⟩
      rcases hnc with hnc | hnc
      · rw [hc1] at hnc; simp at hnc
      · exact hnc hc2)]
  have hlen : ((c :: cs).drop r.tok.length).length ≤ cs.length := by
    simp [List.length_drop, Rule.tok]
  rw [expandF_irrel r cs.length ((c :: cs).drop r.tok.length).length _ _ hlen (le_refl _)]
  rfl

/-! ## The no-match predicate -/

/-- A text with no match is left unchanged by the expansion pass. -/
theorem expandTok_of_noMatch (r : Rule) :
    ∀ (l : List Char) (prev : Option Char),
      noMatchB r prev l = true → expandTok r prev l = l := by
  intro l
  induction l with
  | nil => intro prev _; rfl
  | cons c cs ih =>
    intro prev h
    simp only [noMatchB, Bool.and_eq_true, Bool.not_eq_true'] at h
    rw [expandTok_cons_nomatch h.1, ih (some c) h.2]

theorem boundaryL_eq_prevW (p : Option Char) : boundaryL p = !prevW p := by
  cases p <;> rfl

/-- `noMatchB` depends on `prev` only through its word-character status. -/
theorem noMatchB_congr (r : Rule) {p p' : Option Char} (h : prevW p = prevW p') :
    ∀ l, noMatchB r p l = noMatchB r p' l := by
  intro l
  cases l with
  | nil => rfl
  | cons c cs =>
    simp only [noMatchB, matchAt, boundaryL_eq_prevW, h]

/-- If the first character cannot start the token, `prev` is irrelevant. -/
theorem noMatchB_blocked (r : Rule) {l : List Char}
    (hl : l = [] ∨ ∃ c cs, l = c :: cs ∧ c.toLower ≠ r.tokHead) (p p' : Option Char) :
    noMatchB r p l = noMatchB r p' l := by
  rcases hl with rfl | ⟨c, cs, rfl, hc⟩
  · rfl
  · simp only [noMatchB, matchAt, Rule.tok, tokAt, decide_eq_true_eq]
    simp [hc]

theorem getLastD_irrel {l : List Char} (h : l ≠ []) (d d' : Char) :
    l.getLastD d = l.getLastD d' := by
  rw [List.getLastD_eq_getLast?, List.getLastD_eq_getLast?]
  cases hx : l.getLast? with
  | none => exact absurd (List.getLast?_eq_none_iff.mp hx) h
  | some x => rfl

/-- Passing a non-empty prefix: the scan continues with the last character
of the prefix as the previous character. -/
theorem noMatchB_append_right (r : Rule) :
    ∀ (u v : List Char) (p : Option Char), u ≠ [] →
      noMatchB r p (u ++ v) = true → noMatchB r (some (u.getLastD 'a')) v = true := by
  intro u
  induction u with
  | nil => intro v p h; exact absurd rfl h
  | cons a u ih =>
    intro v p _ h
    simp only [List.cons_append, noMatchB, Bool.and_eq_true] at h
    cases u with
    | nil => simpa using h.2
    | cons b u' =>
      have := ih v (some a) (by simp) h.2
      simpa [List.getLastD_cons] using this

/-- Output of an expansion pass never matches its own rule, provided the
replacement text blocks matches (`hRepl`), the token starts with a word
character, the replacement ends in `:` whenever the pattern consumes a
colon, and a failed match stays failed after the tail is expanded
(`hNM`). -/
theorem noMatchB_expandTok (r : Rule)
    (hW : isWordChar r.tokHead = true)
    (hRepl : ∀ (X : List Char) (p' : Option Char),
      noMatchB r (some (r.repl.getLastD 'a')) X = true →
      noMatchB r p' (r.repl ++ X) = true)
    (hColon : r.optColon = true → r.repl.getLastD 'a' = ':')
    (hNM : ∀ (prev : Option Char) (c : Char) (cs : List Char),
      matchAt r prev (c :: cs) = false →
      matchAt r prev (c :: expandTok r (some c) cs) = false) :
    ∀ (n : Nat) (l : List Char), l.length ≤ n → ∀ prev,
      noMatchB r prev (expandTok r prev l) = true := by
  intro n
  induction n with
  | zero =>
    intro l hl prev
    have : l = [] := List.eq_nil_of_length_eq_zero (Nat.le_zero.mp hl)
    subst this; rfl
  | succ n ih =>
    intro l hl prev
    match l with
    | [] => rfl
    | c :: cs =>
      by_cases hm : matchAt r prev (c :: cs) = true
      · by_cases hco : r.optColon = true ∧ ((c :: cs).drop r.tok.length).head? = some ':'
        · obtain ⟨hco1, hco2⟩ := hco
          obtain ⟨rest2, hrest⟩ : ∃ rest2, (c :: cs).drop r.tok.length = ':' :: rest2 := by
            cases hr : (c :: cs).drop r.tok.length with
            | nil => rw [hr] at hco2; simp at hco2
            | cons d t =>
              rw [hr] at hco2
              have hdc : d = ':' := by
                have h2 : some d = some ':' := hco2
                injection h2
              exact ⟨t, by rw [hdc]⟩
          rw [expandTok_cons_colon hm hco1 hrest]
          have hlen2 : rest2.length ≤ n := by
            have hdl := congrArg List.length hrest
            simp only [List.length_drop, List.length_cons, Rule.tok] at hdl
            simp only [List.length_cons] at hl
            omega
          refine hRepl _ prev ?_
          rw [hColon hco1]
          exact ih rest2 hlen2 (some ':')
        · have hnc : r.optColon = false ∨ ((c :: cs).drop r.tok.length).head? ≠ some ':' := by
            cases hbo : r.optColon
            · exact Or.inl rfl
            · exact Or.inr (fun hc2 => hco ⟨hbo, hc2⟩)
          rw [expandTok_cons_nocolon hm hnc]
          have hlenr : ((c :: cs).drop r.tok.length).length ≤ n := by
            simp only [List.length_drop, List.length_cons, Rule.tok]
            simp only [List.length_cons] at hl
            omega
          have hout' := ih _ hlenr (some (((c :: cs).take r.tok.length).getLastD c))
          refine hRepl _ prev ?_
          cases hr : (c :: cs).drop r.tok.length with
          | nil => exact rfl
          | cons d rest' =>
            have hd : isWordChar d = false := by
              unfold matchAt at hm
              simp only [Bool.and_eq_true] at hm
              have hbr := hm.2
              rw [hr] at hbr
              unfold boundaryR at hbr
              simpa using hbr
            have hdt : d.toLower ≠ r.tokHead := by
              rw [toLower_of_nonword hd]
              intro hcon
              rw [hcon, hW] at hd
              simp at hd
            have hstep : ∀ q : Option Char, expandTok r q (d :: rest')
                = d :: expandTok r (some d) rest' := by
              intro q
              apply expandTok_cons_nomatch
              show (boundaryL q && tokAt r.tok (d :: rest')
                && boundaryR ((d :: rest').drop r.tok.length)) = false
              have : tokAt r.tok (d :: rest') = false := by
                show tokAt (r.tokHead :: r.tokTail) (d :: rest') = false
                simp [tokAt, hdt]
              simp [this]
            rw [hr] at hout'
            rw [hstep] at hout'
            rw [hstep]
            rw [noMatchB_blocked r (Or.inr ⟨d, _, rfl, hdt⟩) _
              (some (((c :: cs).take r.tok.length).getLastD c))]
            exact hout'
      · have hm' : matchAt r prev (c :: cs) = false := by simpa using hm
        rw [expandTok_cons_nomatch hm']
        simp only [noMatchB, Bool.and_eq_true, Bool.not_eq_true']
        refine ⟨hNM prev c cs hm', ?_⟩
        exact ih cs (by simp only [List.length_cons] at hl; omega) (some c)

/-- A later pass preserves the no-match property of an earlier rule,
under the analogous side conditions on the later rule replacement. -/
theorem noMatchB_expandTok_preserved (A B : Rule)
    (hWA : isWordChar A.tokHead = true)
    (hWB : isWordChar B.tokHead = true)
    (hReplAB : ∀ (X : List Char) (p' : Option Char),
      noMatchB A (some (B.repl.getLastD 'a')) X = true →
      noMatchB A p' (B.repl ++ X) = true)
    (hColonB : B.optColon = true → B.repl.getLastD 'a' = ':')
    (hNMAB : ∀ (prev : Option Char) (c : Char) (cs : List Char),
      matchAt A prev (c :: cs) = false →
      matchAt A prev (c :: expandTok B (some c) cs) = false) :
    ∀ (n : Nat) (l : List Char), l.length ≤ n → ∀ prev,
      noMatchB A prev l = true → noMatchB A prev (expandTok B prev l) = true := by
  intro n
  induction n with
  | zero =>
    intro l hl prev h
    have : l = [] := List.eq_nil_of_length_eq_zero (Nat.le_zero.mp hl)
    subst this; rfl
  | succ n ih =>
    intro l hl prev h
    match l with
    | [] => rfl
    | c :: cs =>
      by_cases hm : matchAt B prev (c :: cs) = true
      · by_cases hco : B.optColon = true ∧ ((c :: cs).drop B.tok.length).head? = some ':'
        · obtain ⟨hco1, hco2⟩ := hco
          obtain ⟨rest2, hrest⟩ : ∃ rest2, (c :: cs).drop B.tok.length = ':' :: rest2 := by
            cases hr : (c :: cs).drop B.tok.length with
            | nil => rw [hr] at hco2; simp at hco2
            | cons d t =>
              rw [hr] at hco2
              have hdc : d = ':' := by
                have h2 : some d = some ':' := hco2
                injection h2
              exact ⟨t, by rw [hdc]⟩
          rw [expandTok_cons_colon hm hco1 hrest]
          have hlen2 : rest2.length ≤ n := by
            have hdl := congrArg List.length hrest
            simp only [List.length_drop, List.length_cons, Rule.tok] at hdl
            simp only [List.length_cons] at hl
            omega
          have hsplit : (c :: cs) = ((c :: cs).take B.tok.length ++ [':']) ++ rest2 := by
            rw [List.append_assoc]
            have := (List.take_append_drop B.tok.length (c :: cs)).symm
            rw [hrest] at this
            simpa using this
          have hrest_nm : noMatchB A (some ':') rest2 = true := by
            have h2 := noMatchB_append_right A ((c :: cs).take B.tok.length ++ [':']) rest2
              prev (by simp) (by rw [← hsplit]; exact h)
            simpa [List.getLastD_concat] using h2
          refine hReplAB _ prev ?_
          rw [hColonB hco1]
          exact ih rest2 hlen2 (some ':') hrest_nm
        · have hnc : B.optColon = false ∨ ((c :: cs).drop B.tok.length).head? ≠ some ':' := by
            cases hbo : B.optColon
            · exact Or.inl rfl
            · exact Or.inr (fun hc2 => hco ⟨hbo, hc2⟩)
          rw [expandTok_cons_nocolon hm hnc]
          have hlenr : ((c :: cs).drop B.tok.length).length ≤ n := by
            simp only [List.length_drop, List.length_cons, Rule.tok]
            simp only [List.length_cons] at hl
            omega
          have htake_ne : (c :: cs).take B.tok.length ≠ [] := by
            show (c :: cs).take (B.tokHead :: B.tokTail).length ≠ []
            simp [List.take_cons]
          have hrest_nm : noMatchB A
              (some (((c :: cs).take B.tok.length).getLastD c))
              ((c :: cs).drop B.tok.length) = true := by
            have h2 := noMatchB_append_right A ((c :: cs).take B.tok.length)
              ((c :: cs).drop B.tok.length) prev htake_ne
              (by rw [List.take_append_drop]; exact h)
            rwa [getLastD_irrel htake_ne 'a' c] at h2
          have hout' := ih _ hlenr (some (((c :: cs).take B.tok.length).getLastD c)) hrest_nm
          refine hReplAB _ prev ?_
          cases hr : (c :: cs).drop B.tok.length with
          | nil => exact rfl
          | cons d rest' =>
            have hd : isWordChar d = false := by
              unfold matchAt at hm
              simp only [Bool.and_eq_true] at hm
              have hbr := hm.2
              rw [hr] at hbr
              unfold boundaryR at hbr
              simpa using hbr
            have hdtA : d.toLower ≠ A.tokHead := by
              rw [toLower_of_nonword hd]
              intro hcon
              rw [hcon, hWA] at hd
              simp at hd
            have hdtB : d.toLower ≠ B.tokHead := by
              rw [toLower_of_nonword hd]
              intro hcon
              rw [hcon, hWB] at hd
              simp at hd
            have hstep : ∀ q : Option Char, expandTok B q (d :: rest')
                = d :: expandTok B (some d) rest' := by
              intro q
              apply expandTok_cons_nomatch
              show (boundaryL q && tokAt B.tok (d :: rest')
                && boundaryR ((d :: rest').drop B.tok.length)) = false
              have htk : tokAt B.tok (d :: rest') = false := by
                show tokAt (B.tokHead :: B.tokTail) (d :: rest') = false
                simp [tokAt, hdtB]
              simp [htk]
            rw [hr] at hout'
            rw [hstep] at hout'
            rw [hstep]
            rw [noMatchB_blocked A (Or.inr ⟨d, _, rfl, hdtA⟩) _
              (some (((c :: cs).take B.tok.length).getLastD c))]
            exact hout'
      · have hm' : matchAt B prev (c :: cs) = false := by simpa using hm
        rw [expandTok_cons_nomatch hm']
        simp only [noMatchB, Bool.and_eq_true, Bool.not_eq_true'] at h ⊢
        refine ⟨hNMAB prev c cs h.1, ?_⟩
        exact ih cs (by simp only [List.length_cons] at hl; omega) (some c) h.2

/-! ## Match-failure helpers -/

theorem noMatchB_cons_of (r : Rule) {p : Option Char} {c : Char} {l : List Char}
    (h1 : matchAt r p (c :: l) = false) (h2 : noMatchB r (some c) l = true) :
    noMatchB r p (c :: l) = true := by
  simp [noMatchB, h1, h2]

theorem matchAt_false_head {r : Rule} {c : Char} (hc : c.toLower ≠ r.tokHead) :
    ∀ (p : Option Char) (l : List Char), matchAt r p (c :: l) = false := by
  intro p l
  unfold matchAt
  have htk : tokAt r.tok (c :: l) = false := by
    show tokAt (r.tokHead :: r.tokTail) (c :: l) = false
    simp [tokAt, hc]
  simp [htk]

theorem matchAt_false_second {r : Rule} {a2 c2 : Char} (ha2 : r.tokTail = [a2])
    (hc2 : c2.toLower ≠ a2) :
    ∀ (p : Option Char) (c1 : Char) (l : List Char),
      matchAt r p (c1 :: c2 :: l) = false := by
  intro p c1 l
  unfold matchAt
  have htk : tokAt r.tok (c1 :: c2 :: l) = false := by
    show tokAt (r.tokHead :: r.tokTail) (c1 :: c2 :: l) = false
    rw [ha2]
    simp [tokAt, hc2]
  simp [htk]

theorem matchAt_false_second3 {r : Rule} {b2 b3 c2 : Char} (ha2 : r.tokTail = [b2, b3])
    (hc2 : c2.toLower ≠ b2) :
    ∀ (p : Option Char) (c1 : Char) (l : List Char),
      matchAt r p (c1 :: c2 :: l) = false := by
  intro p c1 l
  unfold matchAt
  have htk : tokAt r.tok (c1 :: c2 :: l) = false := by
    show tokAt (r.tokHead :: r.tokTail) (c1 :: c2 :: l) = false
    rw [ha2]
    simp [tokAt, hc2]
  simp [htk]

/-- For a two-letter all-word-character token, a failed match stays failed
after any later pass rewrites the tail: expansions only ever change the
text strictly after an unbroken word-character run. -/
theorem matchAt_stable_two (A B : Rule) {a2 : Char}
    (ha2 : A.tokTail = [a2])
    (hWA1 : isWordChar A.tokHead = true)
    (hWA2 : isWordChar a2 = true)
    (_hWB : isWordChar B.tokHead = true) :
    ∀ (prev : Option Char) (c : Char) (cs : List Char),
      matchAt A prev (c :: cs) = false →
      matchAt A prev (c :: expandTok B (some c) cs) = false := by
  intro prev c cs h
  by_cases hb : boundaryL prev = true
  case neg =>
    have hb' : boundaryL prev = false := by simpa using hb
    unfold matchAt
    rw [hb']
    simp
  by_cases hc1 : c.toLower = A.tokHead
  case neg => exact matchAt_false_head hc1 prev _
  have hcw : isWordChar c = true := word_of_toLower hc1 hWA1
  have hlen2 : A.tok.length = 2 := by
    show (A.tokHead :: A.tokTail).length = 2
    rw [ha2]
    rfl
  cases cs with
  | nil =>
    rw [expandTok_nil]
    exact h
  | cons d cs' =>
    have hBnm : matchAt B (some c) (d :: cs') = false := by
      unfold matchAt
      rw [boundaryL_eq_prevW]
      have hpw : prevW (some c) = true := hcw
      rw [hpw]
      simp
    rw [expandTok_cons_nomatch hBnm]
    by_cases hd1 : d.toLower = a2
    case neg => exact matchAt_false_second ha2 hd1 prev c _
    have hdw : isWordChar d = true := word_of_toLower hd1 hWA2
    have htk : ∀ l : List Char, tokAt A.tok (c :: d :: l) = true := by
      intro l
      show tokAt (A.tokHead :: A.tokTail) (c :: d :: l) = true
      rw [ha2]
      simp [tokAt, hc1, hd1]
    cases cs' with
    | nil =>
      exfalso
      unfold matchAt at h
      rw [hb, htk [], hlen2] at h
      simp [boundaryR] at h
    | cons e cs'' =>
      have hew : isWordChar e = true := by
        unfold matchAt at h
        rw [hb, htk (e :: cs''), hlen2] at h
        simp only [Bool.true_and] at h
        have h2 : boundaryR (e :: cs'') = false := by
          simpa using h
        unfold boundaryR at h2
        simpa using h2
      have hBnm2 : matchAt B (some d) (e :: cs'') = false := by
        unfold matchAt
        rw [boundaryL_eq_prevW]
        have hpw : prevW (some d) = true := hdw
        rw [hpw]
        simp
      rw [expandTok_cons_nomatch hBnm2]
      unfold matchAt
      rw [hlen2]
      have hbr : boundaryR (e :: expandTok B (some e) cs'') = false := by
        unfold boundaryR
        simp [hew]
      show (boundaryL prev && tokAt A.tok (c :: d :: e :: expandTok B (some e) cs'')
        && boundaryR ((c :: d :: e :: expandTok B (some e) cs'').drop 2)) = false
      have hdrop : (c :: d :: e :: expandTok B (some e) cs'').drop 2
          = e :: expandTok B (some e) cs'' := rfl
      rw [hdrop, hbr]
      simp

/-! ## Replacement texts never contain or enable a token match -/

theorem replBlocks_pt_patient :
    ∀ (X : List Char) (p : Option Char),
      noMatchB ptRule (some (ptRule.repl.getLastD 'a')) X = true →
      noMatchB ptRule p (ptRule.repl ++ X) = true := by
  intro X p hX
  show noMatchB ptRule p ('P' :: 'a' :: 't' :: 'i' :: 'e' :: 'n' :: 't' :: ':' :: X) = true
  refine noMatchB_cons_of _ (matchAt_false_second rfl (by decide) _ _ _) ?_
  refine noMatchB_cons_of _ (matchAt_false_head (by decide) _ _) ?_
  refine noMatchB_cons_of _ (matchAt_false_head (by decide) _ _) ?_
  refine noMatchB_cons_of _ (matchAt_false_head (by decide) _ _) ?_
  refine noMatchB_cons_of _ (matchAt_false_head (by decide) _ _) ?_
  refine noMatchB_cons_of _ (matchAt_false_head (by decide) _ _) ?_
  refine noMatchB_cons_of _ (matchAt_false_head (by decide) _ _) ?_
  refine noMatchB_cons_of _ (matchAt_false_head (by decide) _ _) ?_
  exact hX

theorem replBlocks_pt_doctor :
    ∀ (X : List Char) (p : Option Char),
      noMatchB ptRule (some (drRule.repl.getLastD 'a')) X = true →
      noMatchB ptRule p (drRule.repl ++ X) = true := by
  intro X p hX
  show noMatchB ptRule p ('D' :: 'o' :: 'c' :: 't' :: 'o' :: 'r' :: ':' :: X) = true
  refine noMatchB_cons_of _ (matchAt_false_head (by decide) _ _) ?_
  refine noMatchB_cons_of _ (matchAt_false_head (by decide) _ _) ?_
  refine noMatchB_cons_of _ (matchAt_false_head (by decide) _ _) ?_
  refine noMatchB_cons_of _ (matchAt_false_head (by decide) _ _) ?_
  refine noMatchB_cons_of _ (matchAt_false_head (by decide) _ _) ?_
  refine noMatchB_cons_of _ (matchAt_false_head (by decide) _ _) ?_
  refine noMatchB_cons_of _ (matchAt_false_head (by decide) _ _) ?_
  exact hX

theorem replBlocks_pt_history :
    ∀ (X : List Char) (p : Option Char),
      noMatchB ptRule (some (hxRule.repl.getLastD 'a')) X = true →
      noMatchB ptRule p (hxRule.repl ++ X) = true := by
  intro X p hX
  show noMatchB ptRule p ('H' :: 'i' :: 's' :: 't' :: 'o' :: 'r' :: 'y' :: X) = true
  refine noMatchB_cons_of _ (matchAt_false_head (by decide) _ _) ?_
  refine noMatchB_cons_of _ (matchAt_false_head (by decide) _ _) ?_
  refine noMatchB_cons_of _ (matchAt_false_head (by decide) _ _) ?_
  refine noMatchB_cons_of _ (matchAt_false_head (by decide) _ _) ?_
  refine noMatchB_cons_of _ (matchAt_false_head (by decide) _ _) ?_
  refine noMatchB_cons_of _ (matchAt_false_head (by decide) _ _) ?_
  refine noMatchB_cons_of _ (matchAt_false_head (by decide) _ _) ?_
  exact hX

theorem replBlocks_pt_co :
    ∀ (X : List Char) (p : Option Char),
      noMatchB ptRule (some (coRule.repl.getLastD 'a')) X = true →
      noMatchB ptRule p (coRule.repl ++ X) = true := by
  intro X p hX
  show noMatchB ptRule p ('C' :: 'o' :: 'm' :: 'p' :: 'l' :: 'a' :: 'i' :: 'n' :: 's' :: ' ' :: 'o' :: 'f' :: X) = true
  refine noMatchB_cons_of _ (matchAt_false_head (by decide) _ _) ?_
  refine noMatchB_cons_of _ (matchAt_false_head (by decide) _ _) ?_
  refine noMatchB_cons_of _ (matchAt_false_head (by decide) _ _) ?_
  refine noMatchB_cons_of _ (matchAt_false_second rfl (by decide) _ _ _) ?_
  refine noMatchB_cons_of _ (matchAt_false_head (by decide) _ _) ?_
  refine noMatchB_cons_of _ (matchAt_false_head (by decide) _ _) ?_
  refine noMatchB_cons_of _ (matchAt_false_head (by decide) _ _) ?_
  refine noMatchB_cons_of _ (matchAt_false_head (by decide) _ _) ?_
  refine noMatchB_cons_of _ (matchAt_false_head (by decide) _ _) ?_
  refine noMatchB_cons_of _ (matchAt_false_head (by decide) _ _) ?_
  refine noMatchB_cons_of _ (matchAt_false_head (by decide) _ _) ?_
  refine noMatchB_cons_of _ (matchAt_false_head (by decide) _ _) ?_
  exact hX

theorem replBlocks_dr_doctor :
    ∀ (X : List Char) (p : Option Char),
      noMatchB drRule (some (drRule.repl.getLastD 'a')) X = true →
      noMatchB drRule p (drRule.repl ++ X) = true := by
  intro X p hX
  show noMatchB drRule p ('D' :: 'o' :: 'c' :: 't' :: 'o' :: 'r' :: ':' :: X) = true
  refine noMatchB_cons_of _ (matchAt_false_second rfl (by decide) _ _ _) ?_
  refine noMatchB_cons_of _ (matchAt_false_head (by decide) _ _) ?_
  refine noMatchB_cons_of _ (matchAt_false_head (by decide) _ _) ?_
  refine noMatchB_cons_of _ (matchAt_false_head (by decide) _ _) ?_
  refine noMatchB_cons_of _ (matchAt_false_head (by decide) _ _) ?_
  refine noMatchB_cons_of _ (matchAt_false_head (by decide) _ _) ?_
  refine noMatchB_cons_of _ (matchAt_false_head (by decide) _ _) ?_
  exact hX

theorem replBlocks_dr_history :
    ∀ (X : List Char) (p : Option Char),
      noMatchB drRule (some (hxRule.repl.getLastD 'a')) X = true →
      noMatchB drRule p (hxRule.repl ++ X) = true := by
  intro X p hX
  show noMatchB drRule p ('H' :: 'i' :: 's' :: 't' :: 'o' :: 'r' :: 'y' :: X) = true
  refine noMatchB_cons_of _ (matchAt_false_head (by decide) _ _) ?_
  refine noMatchB_cons_of _ (matchAt_false_head (by decide) _ _) ?_
  refine noMatchB_cons_of _ (matchAt_false_head (by decide) _ _) ?_
  refine noMatchB_cons_of _ (matchAt_false_head (by decide) _ _) ?_
  refine noMatchB_cons_of _ (matchAt_false_head (by decide) _ _) ?_
  refine noMatchB_cons_of _ (matchAt_false_head (by decide) _ _) ?_
  refine noMatchB_cons_of _ (matchAt_false_head (by decide) _ _) ?_
  exact hX

theorem replBlocks_dr_co :
    ∀ (X : List Char) (p : Option Char),
      noMatchB drRule (some (coRule.repl.getLastD 'a')) X = true →
      noMatchB drRule p (coRule.repl ++ X) = true := by
  intro X p hX
  show noMatchB drRule p ('C' :: 'o' :: 'm' :: 'p' :: 'l' :: 'a' :: 'i' :: 'n' :: 's' :: ' ' :: 'o' :: 'f' :: X) = true
  refine noMatchB_cons_of _ (matchAt_false_head (by decide) _ _) ?_
  refine noMatchB_cons_of _ (matchAt_false_head (by decide) _ _) ?_
  refine noMatchB_cons_of _ (matchAt_false_head (by decide) _ _) ?_
  refine noMatchB_cons_of _ (matchAt_false_head (by decide) _ _) ?_
  refine noMatchB_cons_of _ (matchAt_false_head (by decide) _ _) ?_
  refine noMatchB_cons_of _ (matchAt_false_head (by decide) _ _) ?_
  refine noMatchB_cons_of _ (matchAt_false_head (by decide) _ _) ?_
  refine noMatchB_cons_of _ (matchAt_false_head (by decide) _ _) ?_
  refine noMatchB_cons_of _ (matchAt_false_head (by decide) _ _) ?_
  refine noMatchB_cons_of _ (matchAt_false_head (by decide) _ _) ?_
  refine noMatchB_cons_of _ (matchAt_false_head (by decide) _ _) ?_
  refine noMatchB_cons_of _ (matchAt_false_head (by decide) _ _) ?_
  exact hX

theorem replBlocks_hx_history :
    ∀ (X : List Char) (p : Option Char),
      noMatchB hxRule (some (hxRule.repl.getLastD 'a')) X = true →
      noMatchB hxRule p (hxRule.repl ++ X) = true := by
  intro X p hX
  show noMatchB hxRule p ('H' :: 'i' :: 's' :: 't' :: 'o' :: 'r' :: 'y' :: X) = true
  refine noMatchB_cons_of _ (matchAt_false_second rfl (by decide) _ _ _) ?_
  refine noMatchB_cons_of _ (matchAt_false_head (by decide) _ _) ?_
  refine noMatchB_cons_of _ (matchAt_false_head (by decide) _ _) ?_
  refine noMatchB_cons_of _ (matchAt_false_head (by decide) _ _) ?_
  refine noMatchB_cons_of _ (matchAt_false_head (by decide) _ _) ?_
  refine noMatchB_cons_of _ (matchAt_false_head (by decide) _ _) ?_
  refine noMatchB_cons_of _ (matchAt_false_head (by decide) _ _) ?_
  exact hX

theorem replBlocks_hx_co :
    ∀ (X : List Char) (p : Option Char),
      noMatchB hxRule (some (coRule.repl.getLastD 'a')) X = true →
      noMatchB hxRule p (coRule.repl ++ X) = true := by
  intro X p hX
  show noMatchB hxRule p ('C' :: 'o' :: 'm' :: 'p' :: 'l' :: 'a' :: 'i' :: 'n' :: 's' :: ' ' :: 'o' :: 'f' :: X) = true
  refine noMatchB_cons_of _ (matchAt_false_head (by decide) _ _) ?_
  refine noMatchB_cons_of _ (matchAt_false_head (by decide) _ _) ?_
  refine noMatchB_cons_of _ (matchAt_false_head (by decide) _ _) ?_
  refine noMatchB_cons_of _ (matchAt_false_head (by decide) _ _) ?_
  refine noMatchB_cons_of _ (matchAt_false_head (by decide) _ _) ?_
  refine noMatchB_cons_of _ (matchAt_false_head (by decide) _ _) ?_
  refine noMatchB_cons_of _ (matchAt_false_head (by decide) _ _) ?_
  refine noMatchB_cons_of _ (matchAt_false_head (by decide) _ _) ?_
  refine noMatchB_cons_of _ (matchAt_false_head (by decide) _ _) ?_
  refine noMatchB_cons_of _ (matchAt_false_head (by decide) _ _) ?_
  refine noMatchB_cons_of _ (matchAt_false_head (by decide) _ _) ?_
  refine noMatchB_cons_of _ (matchAt_false_head (by decide) _ _) ?_
  exact hX

theorem replBlocks_co_co :
    ∀ (X : List Char) (p : Option Char),
      noMatchB coRule (some (coRule.repl.getLastD 'a')) X = true →
      noMatchB coRule p (coRule.repl ++ X) = true := by
  intro X p hX
  show noMatchB coRule p ('C' :: 'o' :: 'm' :: 'p' :: 'l' :: 'a' :: 'i' :: 'n' :: 's' :: ' ' :: 'o' :: 'f' :: X) = true
  refine noMatchB_cons_of _ (matchAt_false_second3 rfl (by decide) _ _ _) ?_
  refine noMatchB_cons_of _ (matchAt_false_head (by decide) _ _) ?_
  refine noMatchB_cons_of _ (matchAt_false_head (by decide) _ _) ?_
  refine noMatchB_cons_of _ (matchAt_false_head (by decide) _ _) ?_
  refine noMatchB_cons_of _ (matchAt_false_head (by decide) _ _) ?_
  refine noMatchB_cons_of _ (matchAt_false_head (by decide) _ _) ?_
  refine noMatchB_cons_of _ (matchAt_false_head (by decide) _ _) ?_
  refine noMatchB_cons_of _ (matchAt_false_head (by decide) _ _) ?_
  refine noMatchB_cons_of _ (matchAt_false_head (by decide) _ _) ?_
  refine noMatchB_cons_of _ (matchAt_false_head (by decide) _ _) ?_
  refine noMatchB_cons_of _ (matchAt_false_head (by decide) _ _) ?_
  refine noMatchB_cons_of _ (matchAt_false_head (by decide) _ _) ?_
  exact hX

/-- The three-character rule `C/O` also keeps failed matches failed under
its own pass. -/
theorem matchAt_stable_co :
    ∀ (prev : Option Char) (c : Char) (cs : List Char),
      matchAt coRule prev (c :: cs) = false →
      matchAt coRule prev (c :: expandTok coRule (some c) cs) = false := by
  intro prev c cs h
  by_cases hb : boundaryL prev = true
  case neg =>
    have hb2 : boundaryL prev = false := by simpa using hb
    unfold matchAt
    rw [hb2]
    simp
  by_cases hc1 : c.toLower = 'c'
  case neg => exact matchAt_false_head hc1 prev _
  have hcw : isWordChar c = true := word_of_toLower hc1 (by decide)
  cases cs with
  | nil =>
    rw [expandTok_nil]
    exact h
  | cons d csa =>
    have hBnm : matchAt coRule (some c) (d :: csa) = false := by
      unfold matchAt
      rw [boundaryL_eq_prevW]
      have hpw : prevW (some c) = true := hcw
      rw [hpw]
      simp
    rw [expandTok_cons_nomatch hBnm]
    by_cases hd1 : d.toLower = '/'
    case neg => exact matchAt_false_second3 rfl hd1 prev c _
    have hd : d = '/' := toLower_eq_nonword hd1 (by decide)
    subst hd
    cases csa with
    | nil =>
      rw [expandTok_nil]
      exact h
    | cons e csb =>
      by_cases he : matchAt coRule (some '/') (e :: csb) = true
      · rw [expandTok_cons_nocolon he (Or.inl rfl)]
        unfold matchAt
        have htk2 : tokAt coRule.tok (c :: '/' :: (coRule.repl ++ expandTok coRule
            (some (((e :: csb).take coRule.tok.length).getLastD e))
            ((e :: csb).drop coRule.tok.length))) = false := by
          show (decide (c.toLower = 'c') && (decide ('/'.toLower = '/')
            && (decide ('C'.toLower = 'o') && tokAt [] _))) = false
          rw [show (decide ('C'.toLower = 'o')) = false from by decide]
          simp
        rw [htk2]
        simp
      · have he2 : matchAt coRule (some '/') (e :: csb) = false := by simpa using he
        rw [expandTok_cons_nomatch he2]
        by_cases he1 : e.toLower = 'o'
        case neg =>
          unfold matchAt
          have htk : tokAt coRule.tok
              (c :: '/' :: e :: expandTok coRule (some e) csb) = false := by
            show (decide (c.toLower = 'c') && (decide ('/'.toLower = '/')
              && (decide (e.toLower = 'o') && tokAt [] _))) = false
            rw [show (decide (e.toLower = 'o')) = false from by simp [he1]]
            simp
          rw [htk]
          simp
        have hew : isWordChar e = true := word_of_toLower he1 (by decide)
        cases csb with
        | nil =>
          exfalso
          unfold matchAt at h
          have htk : tokAt coRule.tok [c, '/', e] = true := by
            show (decide (c.toLower = 'c') && (decide ('/'.toLower = '/')
              && (decide (e.toLower = 'o') && tokAt [] []))) = true
            simp [hc1, he1, tokAt]
          rw [hb, htk] at h
          have hdr : boundaryR ([c, '/', e].drop coRule.tok.length) = true := rfl
          rw [hdr] at h
          simp at h
        | cons f csc =>
          have hfw : isWordChar f = true := by
            unfold matchAt at h
            have htk : tokAt coRule.tok (c :: '/' :: e :: f :: csc) = true := by
              show (decide (c.toLower = 'c') && (decide ('/'.toLower = '/')
                && (decide (e.toLower = 'o') && tokAt [] _))) = true
              simp [hc1, he1, tokAt]
            rw [hb, htk] at h
            have hdr : (c :: '/' :: e :: f :: csc).drop coRule.tok.length
                = f :: csc := rfl
            rw [hdr] at h
            simp only [Bool.true_and] at h
            unfold boundaryR at h
            simpa using h
          have hBnm3 : matchAt coRule (some e) (f :: csc) = false := by
            unfold matchAt
            rw [boundaryL_eq_prevW]
            have hpw : prevW (some e) = true := hew
            rw [hpw]
            simp
          rw [expandTok_cons_nomatch hBnm3]
          unfold matchAt
          have hdr : (c :: '/' :: e :: f :: expandTok coRule (some f) csc).drop
              coRule.tok.length = f :: expandTok coRule (some f) csc := rfl
          rw [hdr]
          have hbr : boundaryR (f :: expandTok coRule (some f) csc) = false := by
            unfold boundaryR
            simp [hfw]
          rw [hbr]
          simp

/-! ## No-match invariants of the four expansion passes -/

theorem noMatch_pt_self (l : List Char) (prev : Option Char) :
    noMatchB ptRule prev (expandTok ptRule prev l) = true :=
  noMatchB_expandTok ptRule (by decide) replBlocks_pt_patient (fun _ => by decide)
    (matchAt_stable_two ptRule ptRule rfl (by decide) (by decide) (by decide))
    l.length l (le_refl _) prev

theorem noMatch_dr_self (l : List Char) (prev : Option Char) :
    noMatchB drRule prev (expandTok drRule prev l) = true :=
  noMatchB_expandTok drRule (by decide) replBlocks_dr_doctor (fun _ => by decide)
    (matchAt_stable_two drRule drRule rfl (by decide) (by decide) (by decide))
    l.length l (le_refl _) prev

theorem noMatch_hx_self (l : List Char) (prev : Option Char) :
    noMatchB hxRule prev (expandTok hxRule prev l) = true :=
  noMatchB_expandTok hxRule (by decide) replBlocks_hx_history
    (fun h => absurd h (by decide))
    (matchAt_stable_two hxRule hxRule rfl (by decide) (by decide) (by decide))
    l.length l (le_refl _) prev

theorem noMatch_co_self (l : List Char) (prev : Option Char) :
    noMatchB coRule prev (expandTok coRule prev l) = true :=
  noMatchB_expandTok coRule (by decide) replBlocks_co_co
    (fun h => absurd h (by decide)) matchAt_stable_co
    l.length l (le_refl _) prev

theorem noMatch_pt_dr (l : List Char) (prev : Option Char)
    (h : noMatchB ptRule prev l = true) :
    noMatchB ptRule prev (expandTok drRule prev l) = true :=
  noMatchB_expandTok_preserved ptRule drRule (by decide) (by decide)
    replBlocks_pt_doctor (fun _ => by decide)
    (matchAt_stable_two ptRule drRule rfl (by decide) (by decide) (by decide))
    l.length l (le_refl _) prev h

theorem noMatch_pt_hx (l : List Char) (prev : Option Char)
    (h : noMatchB ptRule prev l = true) :
    noMatchB ptRule prev (expandTok hxRule prev l) = true :=
  noMatchB_expandTok_preserved ptRule hxRule (by decide) (by decide)
    replBlocks_pt_history (fun h2 => absurd h2 (by decide))
    (matchAt_stable_two ptRule hxRule rfl (by decide) (by decide) (by decide))
    l.length l (le_refl _) prev h

theorem noMatch_pt_co (l : List Char) (prev : Option Char)
    (h : noMatchB ptRule prev l = true) :
    noMatchB ptRule prev (expandTok coRule prev l) = true :=
  noMatchB_expandTok_preserved ptRule coRule (by decide) (by decide)
    replBlocks_pt_co (fun h2 => absurd h2 (by decide))
    (matchAt_stable_two ptRule coRule rfl (by decide) (by decide) (by decide))
    l.length l (le_refl _) prev h

theorem noMatch_dr_hx (l : List Char) (prev : Option Char)
    (h : noMatchB drRule prev l = true) :
    noMatchB drRule prev (expandTok hxRule prev l) = true :=
  noMatchB_expandTok_preserved drRule hxRule (by decide) (by decide)
    replBlocks_dr_history (fun h2 => absurd h2 (by decide))
    (matchAt_stable_two drRule hxRule rfl (by decide) (by decide) (by decide))
    l.length l (le_refl _) prev h

theorem noMatch_dr_co (l : List Char) (prev : Option Char)
    (h : noMatchB drRule prev l = true) :
    noMatchB drRule prev (expandTok coRule prev l) = true :=
  noMatchB_expandTok_preserved drRule coRule (by decide) (by decide)
    replBlocks_dr_co (fun h2 => absurd h2 (by decide))
    (matchAt_stable_two drRule coRule rfl (by decide) (by decide) (by decide))
    l.length l (le_refl _) prev h

theorem noMatch_hx_co (l : List Char) (prev : Option Char)
    (h : noMatchB hxRule prev l = true) :
    noMatchB hxRule prev (expandTok coRule prev l) = true :=
  noMatchB_expandTok_preserved hxRule coRule (by decide) (by decide)
    replBlocks_hx_co (fun h2 => absurd h2 (by decide))
    (matchAt_stable_two hxRule coRule rfl (by decide) (by decide) (by decide))
    l.length l (le_refl _) prev h

/-! ## Whitespace normal forms: newline normalisation -/

theorem pyWs_cr : pyWs '\r' = true := by decide

theorem ne_cr_of_not_ws {c : Char} (h : pyWs c = false) : c ≠ '\r' := by
  intro hc
  rw [hc] at h
  exact absurd h (by decide)

theorem lastNotWs_cons_of_ne_nil {a : Char} {l : List Char} (h : l ≠ []) :
    lastNotWs (a :: l) ↔ lastNotWs l := by
  cases l with
  | nil => exact absurd rfl h
  | cons b t =>
    unfold lastNotWs
    rw [List.getLast?_cons_cons]

theorem lastNotWs_singleton {a : Char} : lastNotWs [a] ↔ pyWs a = false := by
  unfold lastNotWs
  simp

theorem nlNorm_cons_ne {c : Char} {cs : List Char} (hc : c ≠ '\r') :
    nlNorm (c :: cs) = c :: nlNorm cs := by
  cases cs with
  | nil =>
    show (if c = '\r' then ['\n'] else [c]) = c :: nlNorm []
    rw [if_neg hc]
    rfl
  | cons d t =>
    show (if c = '\r' then _ else c :: nlNorm (d :: t)) = _
    rw [if_neg hc]

theorem nlNorm_crlf (cs : List Char) : nlNorm ('\r' :: '\n' :: cs) = '\n' :: nlNorm cs := by
  show (if '\r' = '\r' then if '\n' = '\n' then '\n' :: nlNorm cs
    else '\n' :: nlNorm ('\n' :: cs) else _) = _
  rw [if_pos rfl, if_pos rfl]

theorem nlNorm_cr_other {d : Char} (hd : d ≠ '\n') (cs : List Char) :
    nlNorm ('\r' :: d :: cs) = '\n' :: nlNorm (d :: cs) := by
  show (if '\r' = '\r' then if d = '\n' then _ else '\n' :: nlNorm (d :: cs) else _) = _
  rw [if_pos rfl, if_neg hd]

theorem nlNorm_cr_nil : nlNorm ['\r'] = ['\n'] := rfl

theorem nlNorm_no_cr : ∀ l : List Char, '\r' ∉ nlNorm l := by
  intro l
  induction l using nlNorm.induct with
  | case1 => simp [nlNorm]
  | case2 =>
    rw [nlNorm_cr_nil]
    simp
  | case3 c hc =>
    rw [nlNorm_cons_ne hc]
    simp only [List.mem_cons]
    rintro (h | h)
    · exact hc h.symm
    · exact absurd h (List.not_mem_nil _)
  | case4 cs ih =>
    rw [nlNorm_crlf]
    simp only [List.mem_cons]
    rintro (h | h)
    · exact absurd h (by decide)
    · exact ih h
  | case5 d cs hd ih =>
    rw [nlNorm_cr_other hd]
    simp only [List.mem_cons]
    rintro (h | h)
    · exact absurd h (by decide)
    · exact ih h
  | case6 c d cs hc ih =>
    rw [nlNorm_cons_ne hc]
    simp only [List.mem_cons]
    rintro (h | h)
    · exact hc h.symm
    · exact ih h

theorem nlNorm_fix : ∀ {l : List Char}, '\r' ∉ l → nlNorm l = l := by
  intro l
  induction l with
  | nil => intro h; rfl
  | cons c cs ih =>
    intro h
    have hc : c ≠ '\r' := fun hh => h (hh ▸ List.mem_cons_self _ _)
    rw [nlNorm_cons_ne hc, ih (fun hh => h (List.mem_cons_of_mem _ hh))]

theorem nlNorm_ne_nil : ∀ {l : List Char}, l ≠ [] → nlNorm l ≠ [] := by
  intro l h
  match l with
  | c :: cs =>
    by_cases hc : c = '\r'
    · subst hc
      cases cs with
      | nil => rw [nlNorm_cr_nil]; simp
      | cons d t =>
        by_cases hd : d = '\n'
        · subst hd; rw [nlNorm_crlf]; simp
        · rw [nlNorm_cr_other hd]; simp
    · rw [nlNorm_cons_ne hc]; simp

theorem nlNorm_head {l : List Char} (h : headNotWs l) :
    (nlNorm l).head? = l.head? := by
  cases l with
  | nil => rfl
  | cons c cs =>
    have hc : pyWs c = false := h c rfl
    rw [nlNorm_cons_ne (ne_cr_of_not_ws hc)]
    rfl

theorem nlNorm_headNotWs {l : List Char} (h : headNotWs l) : headNotWs (nlNorm l) := by
  intro c hc
  rw [nlNorm_head h] at hc
  exact h c hc

theorem nlNorm_lastNotWs : ∀ {l : List Char}, lastNotWs l → lastNotWs (nlNorm l) := by
  intro l
  induction l using nlNorm.induct with
  | case1 => intro h; exact h
  | case2 =>
    intro h
    exact absurd (lastNotWs_singleton.mp h) (by decide)
  | case3 c hc =>
    intro h
    rw [nlNorm_cons_ne hc]
    exact h
  | case4 cs ih =>
    intro h
    rw [nlNorm_crlf]
    cases hcs : cs with
    | nil =>
      exfalso
      subst hcs
      have h1 := (lastNotWs_cons_of_ne_nil (by simp)).mp h
      exact absurd (lastNotWs_singleton.mp h1) (by decide)
    | cons e t =>
      subst hcs
      have h2 : lastNotWs (e :: t) :=
        (lastNotWs_cons_of_ne_nil (by simp)).mp ((lastNotWs_cons_of_ne_nil (by simp)).mp h)
      have h3 := ih h2
      rwa [lastNotWs_cons_of_ne_nil (nlNorm_ne_nil (by simp))]
  | case5 d cs hd ih =>
    intro h
    rw [nlNorm_cr_other hd]
    have h2 : lastNotWs (d :: cs) := (lastNotWs_cons_of_ne_nil (by simp)).mp h
    have h3 := ih h2
    rwa [lastNotWs_cons_of_ne_nil (nlNorm_ne_nil (by simp))]
  | case6 c d cs hc ih =>
    intro h
    rw [nlNorm_cons_ne hc]
    have h2 : lastNotWs (d :: cs) := (lastNotWs_cons_of_ne_nil (by simp)).mp h
    have h3 := ih h2
    rwa [lastNotWs_cons_of_ne_nil (nlNorm_ne_nil (by simp))]

/-! ## Whitespace normal forms: list helpers -/

theorem getLast?_cons_ne_nil {a : Char} {l : List Char} (h : l ≠ []) :
    (a :: l).getLast? = l.getLast? := by
  cases l with
  | nil => exact absurd rfl h
  | cons b t => exact List.getLast?_cons_cons

theorem wsNlFree_nil : wsNlFree [] = true := rfl

theorem wsNlFree_cons_nonws {c : Char} (hc : pyWs c = false) (cs : List Char) :
    wsNlFree (c :: cs) = true := by
  simp [wsNlFree, List.takeWhile_cons, hc]

theorem wsNlFree_nl (cs : List Char) : wsNlFree ('\n' :: cs) = false := by
  simp [wsNlFree, List.takeWhile_cons]
  decide

theorem wsNlFree_cons_ws {c : Char} (hc : pyWs c = true) (hn : c ≠ '\n')
    (cs : List Char) : wsNlFree (c :: cs) = wsNlFree cs := by
  simp only [wsNlFree, List.takeWhile_cons, hc, if_pos]
  simp only [List.contains_cons]
  simp
  exact fun _ h => hn h.symm

theorem wsNlFree_of_no_nl {a : List Char} (h : '\n' ∉ a) : wsNlFree a = true := by
  unfold wsNlFree
  have h2 : '\n' ∉ a.takeWhile pyWs :=
    fun hh => h ((List.takeWhile_sublist pyWs).subset hh)
  simp [h2]

theorem nbOK_cons_nonl {c : Char} (hc : c ≠ '\n') (cs : List Char) :
    nbOK (c :: cs) = nbOK cs := by
  simp [nbOK, hc]

theorem nbOK_cons_nl (cs : List Char) :
    nbOK ('\n' :: cs) = (wsNlFree cs && nbOK cs) := by
  simp [nbOK]

theorem nbOK_of_no_nl : ∀ {a : List Char}, '\n' ∉ a → nbOK a = true := by
  intro a
  induction a with
  | nil => intro h; rfl
  | cons c cs ih =>
    intro h
    have hc : c ≠ '\n' := fun hh => h (hh ▸ List.mem_cons_self _ _)
    rw [nbOK_cons_nonl hc]
    exact ih (fun hh => h (List.mem_cons_of_mem _ hh))

theorem nbOK_append_nonl : ∀ {a b : List Char}, '\n' ∉ a → nbOK b = true →
    nbOK (a ++ b) = true := by
  intro a
  induction a with
  | nil => intro b _ hb; exact hb
  | cons c cs ih =>
    intro b h hb
    have hc : c ≠ '\n' := fun hh => h (hh ▸ List.mem_cons_self _ _)
    rw [List.cons_append, nbOK_cons_nonl hc]
    exact ih (fun hh => h (List.mem_cons_of_mem _ hh)) hb

theorem takeWhile_append_all {p : Char → Bool} :
    ∀ {a : List Char}, (∀ x ∈ a, p x = true) →
      ∀ b, (a ++ b).takeWhile p = a ++ b.takeWhile p := by
  intro a
  induction a with
  | nil => intro _ b; rfl
  | cons c cs ih =>
    intro h b
    rw [List.cons_append, List.takeWhile_cons, if_pos (h c (List.mem_cons_self _ _)),
      ih (fun x hx => h x (List.mem_cons_of_mem _ hx)) b]
    rfl

theorem wsNlFree_flush {buf : List Char} (hws : ∀ x ∈ buf, pyWs x = true)
    (hnl : '\n' ∉ buf) {c : Char} (hc : pyWs c = false) (X : List Char) :
    wsNlFree (buf.reverse ++ c :: X) = true := by
  unfold wsNlFree
  rw [takeWhile_append_all (fun x hx => hws x (List.mem_reverse.mp hx)),
    List.takeWhile_cons, if_neg (by simp [hc])]
  have h2 : '\n' ∉ buf.reverse := fun hh => hnl (List.mem_reverse.mp hh)
  simp [h2]

/-! ## Whitespace normal forms: blank-line collapse -/

theorem blanksF_none_nil : blanksF none [] = [] := rfl

theorem blanksF_none_nl (cs : List Char) :
    blanksF none ('\n' :: cs) = '\n' :: blanksF (some []) cs := by
  simp [blanksF]

theorem blanksF_none_other {c : Char} (hc : c ≠ '\n') (cs : List Char) :
    blanksF none (c :: cs) = c :: blanksF none cs := by
  simp [blanksF, hc]

theorem blanksF_some_nil (buf : List Char) : blanksF (some buf) [] = buf.reverse := rfl

theorem blanksF_some_nl (buf cs : List Char) :
    blanksF (some buf) ('\n' :: cs) = blanksF (some []) cs := by
  simp [blanksF]

theorem blanksF_some_ws {c : Char} (hn : c ≠ '\n') (hc : pyWs c = true)
    (buf cs : List Char) :
    blanksF (some buf) (c :: cs) = blanksF (some (c :: buf)) cs := by
  simp [blanksF, hn, hc]

theorem blanksF_some_flush {c : Char} (hc : pyWs c = false) (buf cs : List Char) :
    blanksF (some buf) (c :: cs) = buf.reverse ++ c :: blanksF none cs := by
  have hn : c ≠ '\n' := by
    intro h
    subst h
    exact absurd hc (by decide)
  simp [blanksF, hn, hc]

/-- The blank-line collapse produces text with no blank-line run, and in
buffer mode (reached right after an emitted newline) text whose whitespace
prefix is newline-free. -/
theorem blanksF_nbOK : ∀ (m : Option (List Char)) (l : List Char),
    (∀ buf, m = some buf → '\n' ∉ buf ∧ ∀ x ∈ buf, pyWs x = true) →
    nbOK (blanksF m l) = true ∧
      (∀ buf, m = some buf → wsNlFree (blanksF m l) = true) := by
  intro m l
  induction m, l using blanksF.induct with
  | case1 => exact fun _ => ⟨rfl, fun buf hb => nomatch hb⟩
  | case2 cs ih =>
    intro _
    obtain ⟨h1, h2⟩ := ih (fun buf hb => by cases hb; exact ⟨by simp, by simp⟩)
    refine ⟨?_, fun buf hb => nomatch hb⟩
    rw [blanksF_none_nl, nbOK_cons_nl, h1, h2 [] rfl]
    rfl
  | case3 c cs hc ih =>
    intro _
    obtain ⟨h1, _⟩ := ih (fun buf hb => nomatch hb)
    refine ⟨?_, fun buf hb => nomatch hb⟩
    rw [blanksF_none_other hc, nbOK_cons_nonl hc, h1]
  | case4 buf =>
    intro h
    obtain ⟨hnl, hws⟩ := h buf rfl
    have h2 : '\n' ∉ buf.reverse := fun hh => hnl (List.mem_reverse.mp hh)
    rw [blanksF_some_nil]
    exact ⟨nbOK_of_no_nl h2, fun _ _ => wsNlFree_of_no_nl h2⟩
  | case5 buf cs ih =>
    intro _
    obtain ⟨h1, h2⟩ := ih (fun buf hb => by cases hb; exact ⟨by simp, by simp⟩)
    rw [blanksF_some_nl]
    exact ⟨h1, fun _ _ => h2 [] rfl⟩
  | case6 buf c cs hn hcw ih =>
    intro h
    obtain ⟨hnl, hws⟩ := h buf rfl
    obtain ⟨h1, h2⟩ := ih (fun buf2 hb => by
      cases hb
      refine ⟨?_, ?_⟩
      · simp only [List.mem_cons]
        rintro (hh | hh)
        · exact hn hh.symm
        · exact hnl hh
      · intro x hx
        rcases List.mem_cons.mp hx with hh | hh
        · subst hh; exact hcw
        · exact hws x hh)
    rw [blanksF_some_ws hn hcw]
    exact ⟨h1, fun _ _ => h2 _ rfl⟩
  | case7 buf c cs hn hnw ih =>
    intro h
    obtain ⟨hnl, hws⟩ := h buf rfl
    have hcf : pyWs c = false := by
      revert hnw
      cases pyWs c <;> simp
    obtain ⟨h1, _⟩ := ih (fun buf hb => nomatch hb)
    rw [blanksF_some_flush hcf]
    have h2 : '\n' ∉ buf.reverse := fun hh => hnl (List.mem_reverse.mp hh)
    refine ⟨?_, fun _ _ => wsNlFree_flush hws hnl hcf _⟩
    refine nbOK_append_nonl h2 ?_
    rw [nbOK_cons_nonl hn, h1]

theorem collapseBlanks_nbOK (l : List Char) : nbOK (collapseBlanks l) = true :=
  (blanksF_nbOK none l (fun _ hb => nomatch hb)).1

/-- Text with no blank-line run is a fixed point of the blank-line collapse;
in buffer mode (with newline-free whitespace prefix) the buffer is simply
flushed in front. -/
theorem blanksF_fix : ∀ (m : Option (List Char)) (l : List Char),
    nbOK l = true →
    (m = none → blanksF m l = l) ∧
      (∀ buf, m = some buf → wsNlFree l = true → blanksF m l = buf.reverse ++ l) := by
  intro m l
  induction m, l using blanksF.induct with
  | case1 => exact fun _ => ⟨fun _ => rfl, fun buf hb => nomatch hb⟩
  | case2 cs ih =>
    intro h
    rw [nbOK_cons_nl, Bool.and_eq_true] at h
    refine ⟨fun _ => ?_, fun buf hb => nomatch hb⟩
    rw [blanksF_none_nl, (ih h.2).2 [] rfl h.1]
    rfl
  | case3 c cs hc ih =>
    intro h
    rw [nbOK_cons_nonl hc] at h
    refine ⟨fun _ => ?_, fun buf hb => nomatch hb⟩
    rw [blanksF_none_other hc, (ih h).1 rfl]
  | case4 buf =>
    intro _
    refine ⟨(fun h0 => nomatch h0), fun buf2 hb _ => ?_⟩
    cases hb
    rw [blanksF_some_nil, List.append_nil]
  | case5 buf cs ih =>
    intro _
    refine ⟨(fun h0 => nomatch h0), fun buf2 hb hw => ?_⟩
    exact absurd hw (by rw [wsNlFree_nl]; simp)
  | case6 buf c cs hn hcw ih =>
    intro h
    rw [nbOK_cons_nonl hn] at h
    refine ⟨(fun h0 => nomatch h0), fun buf2 hb hw => ?_⟩
    cases hb
    rw [wsNlFree_cons_ws hcw hn] at hw
    rw [blanksF_some_ws hn hcw, (ih h).2 (c :: buf) rfl hw]
    simp

  | case7 buf c cs hn hnw ih =>
    intro h
    rw [nbOK_cons_nonl hn] at h
    have hcf : pyWs c = false := by
      revert hnw
      cases pyWs c <;> simp
    refine ⟨(fun h0 => nomatch h0), fun buf2 hb hw => ?_⟩
    cases hb
    rw [blanksF_some_flush hcf, (ih h).1 rfl]

theorem collapseBlanks_fix {l : List Char} (h : nbOK l = true) :
    collapseBlanks l = l :=
  (blanksF_fix none l h).1 rfl

theorem getLast?_append_right {a b : List Char} (h : b ≠ []) :
    (a ++ b).getLast? = b.getLast? := by
  rw [List.getLast?_append]
  cases hb : b.getLast? with
  | none => exact absurd (List.getLast?_eq_none_iff.mp hb) h
  | some x => rfl

/-- When the input ends in a non-whitespace character, the blank-line
collapse keeps the last character and produces non-empty output. -/
theorem blanksF_getLast : ∀ (m : Option (List Char)) (l : List Char),
    l ≠ [] → lastNotWs l →
    (blanksF m l).getLast? = l.getLast? ∧ blanksF m l ≠ [] := by
  intro m l
  induction m, l using blanksF.induct with
  | case1 => intro h _; exact absurd rfl h
  | case2 cs ih =>
    intro _ hlw
    cases cs with
    | nil => exact absurd (lastNotWs_singleton.mp hlw) (by decide)
    | cons e t =>
      obtain ⟨h1, h2⟩ := ih (by simp) ((lastNotWs_cons_of_ne_nil (by simp)).mp hlw)
      rw [blanksF_none_nl, getLast?_cons_ne_nil h2, h1,
        getLast?_cons_ne_nil (by simp : (e :: t : List Char) ≠ [])]
      exact ⟨rfl, by simp⟩
  | case3 c cs hc ih =>
    intro _ hlw
    cases cs with
    | nil =>
      rw [blanksF_none_other hc]
      exact ⟨rfl, by simp⟩
    | cons e t =>
      obtain ⟨h1, h2⟩ := ih (by simp) ((lastNotWs_cons_of_ne_nil (by simp)).mp hlw)
      rw [blanksF_none_other hc, getLast?_cons_ne_nil h2, h1,
        getLast?_cons_ne_nil (by simp : (e :: t : List Char) ≠ [])]
      exact ⟨rfl, by simp⟩
  | case4 buf =>
    intro h _
    exact absurd rfl h
  | case5 buf cs ih =>
    intro _ hlw
    cases cs with
    | nil => exact absurd (lastNotWs_singleton.mp hlw) (by decide)
    | cons e t =>
      obtain ⟨h1, h2⟩ := ih (by simp) ((lastNotWs_cons_of_ne_nil (by simp)).mp hlw)
      rw [blanksF_some_nl, h1, getLast?_cons_ne_nil (by simp : (e :: t : List Char) ≠ [])]
      exact ⟨rfl, h2⟩
  | case6 buf c cs hn hcw ih =>
    intro _ hlw
    cases cs with
    | nil =>
      rw [lastNotWs_singleton] at hlw
      exact absurd hcw (by rw [hlw]; simp)
    | cons e t =>
      obtain ⟨h1, h2⟩ := ih (by simp) ((lastNotWs_cons_of_ne_nil (by simp)).mp hlw)
      rw [blanksF_some_ws hn hcw, h1,
        getLast?_cons_ne_nil (by simp : (e :: t : List Char) ≠ [])]
      exact ⟨rfl, h2⟩
  | case7 buf c cs hn hnw ih =>
    intro _ hlw
    have hcf : pyWs c = false := by
      revert hnw
      cases pyWs c <;> simp
    rw [blanksF_some_flush hcf]
    cases cs with
    | nil =>
      refine ⟨?_, by simp⟩
      show (buf.reverse ++ [c]).getLast? = [c].getLast?
      rw [List.getLast?_concat]
      rfl
    | cons e t =>
      obtain ⟨h1, h2⟩ := ih (by simp) ((lastNotWs_cons_of_ne_nil (by simp)).mp hlw)
      refine ⟨?_, by simp⟩
      rw [getLast?_append_right (by simp : (c :: blanksF none (e :: t)) ≠ []),
        getLast?_cons_ne_nil h2, h1,
        getLast?_cons_ne_nil (by simp : (e :: t : List Char) ≠ [])]

theorem collapseBlanks_lastNotWs {l : List Char} (h : l ≠ []) (hl : lastNotWs l) :
    lastNotWs (collapseBlanks l) := by
  intro c hc
  rw [show collapseBlanks l = blanksF none l from rfl,
    (blanksF_getLast none l h hl).1] at hc
  exact hl c hc

theorem collapseBlanks_ne_nil {l : List Char} (h : l ≠ []) (hl : lastNotWs l) :
    collapseBlanks l ≠ [] :=
  (blanksF_getLast none l h hl).2

theorem collapseBlanks_head {l : List Char} (h : headNotWs l) :
    (collapseBlanks l).head? = l.head? := by
  cases l with
  | nil => rfl
  | cons c cs =>
    have hc : pyWs c = false := h c rfl
    have hn : c ≠ '\n' := by
      intro hh
      subst hh
      exact absurd hc (by decide)
    rw [show collapseBlanks (c :: cs) = blanksF none (c :: cs) from rfl,
      blanksF_none_other hn]
    rfl

theorem collapseBlanks_headNotWs {l : List Char} (h : headNotWs l) :
    headNotWs (collapseBlanks l) := by
  intro c hc
  rw [collapseBlanks_head h] at hc
  exact h c hc

theorem blanksF_no_cr : ∀ (m : Option (List Char)) (l : List Char),
    '\r' ∉ l → (∀ buf, m = some buf → '\r' ∉ buf) → '\r' ∉ blanksF m l := by
  intro m l
  induction m, l using blanksF.induct with
  | case1 => intro _ _ h; exact absurd h (List.not_mem_nil _)
  | case2 cs ih =>
    intro hl _
    rw [blanksF_none_nl]
    simp only [List.mem_cons]
    rintro (h | h)
    · exact absurd h (by decide)
    · exact ih (fun hh => hl (List.mem_cons_of_mem _ hh)) (fun buf hb => by cases hb; simp) h
  | case3 c cs hc ih =>
    intro hl _
    rw [blanksF_none_other hc]
    simp only [List.mem_cons]
    rintro (h | h)
    · exact hl (h ▸ List.mem_cons_self _ _)
    · exact ih (fun hh => hl (List.mem_cons_of_mem _ hh)) (fun buf hb => nomatch hb) h
  | case4 buf =>
    intro _ hm h
    rw [blanksF_some_nil] at h
    exact hm buf rfl (List.mem_reverse.mp h)
  | case5 buf cs ih =>
    intro hl _
    rw [blanksF_some_nl]
    exact ih (fun hh => hl (List.mem_cons_of_mem _ hh)) (fun buf hb => by cases hb; simp)
  | case6 buf c cs hn hcw ih =>
    intro hl hm
    rw [blanksF_some_ws hn hcw]
    refine ih (fun hh => hl (List.mem_cons_of_mem _ hh)) (fun buf2 hb => ?_)
    cases hb
    simp only [List.mem_cons]
    rintro (h | h)
    · exact hl (h ▸ List.mem_cons_self _ _)
    · exact hm buf rfl h
  | case7 buf c cs hn hnw ih =>
    intro hl hm
    have hcf : pyWs c = false := by
      revert hnw
      cases pyWs c <;> simp
    rw [blanksF_some_flush hcf]
    intro h
    rcases List.mem_append.mp h with h | h
    · exact hm buf rfl (List.mem_reverse.mp h)
    · rcases List.mem_cons.mp h with h | h
      · exact hl (h ▸ List.mem_cons_self _ _)
      · exact ih (fun hh => hl (List.mem_cons_of_mem _ hh)) (fun buf hb => nomatch hb) h

/-! ## Whitespace normal forms: horizontal-space collapse -/

theorem spacesF_nil (b : Bool) : spacesF b [] = [] := rfl

theorem spacesF_ht_true {c : Char} (hc : isHT c = true) (cs : List Char) :
    spacesF true (c :: cs) = spacesF true cs := by
  simp [spacesF, hc]

theorem spacesF_ht_false {c : Char} (hc : isHT c = true) (cs : List Char) :
    spacesF false (c :: cs) = ' ' :: spacesF true cs := by
  simp [spacesF, hc]

theorem spacesF_other {b : Bool} {c : Char} (hc : isHT c = false) (cs : List Char) :
    spacesF b (c :: cs) = c :: spacesF false cs := by
  simp [spacesF, hc]

theorem pyWs_of_isHT {c : Char} (hc : isHT c = true) : pyWs c = true := by
  rw [isHT, Bool.or_eq_true, decide_eq_true_eq, decide_eq_true_eq] at hc
  rcases hc with h | h <;> subst h <;> decide

theorem ne_nl_of_isHT {c : Char} (hc : isHT c = true) : c ≠ '\n' := by
  rw [isHT, Bool.or_eq_true, decide_eq_true_eq, decide_eq_true_eq] at hc
  rcases hc with h | h <;> subst h <;> decide

theorem isHT_of_not_ws {c : Char} (hc : pyWs c = false) : isHT c = false := by
  cases h : isHT c
  · rfl
  · rw [pyWs_of_isHT h] at hc
    exact absurd hc (by simp)

theorem headIsSpace_cons (c : Char) (X : List Char) :
    headIsSpace (c :: X) = decide (c = ' ') := by
  simp [headIsSpace]

theorem spOK_cons (c : Char) (cs : List Char) :
    spOK (c :: cs) = (!(c = '\t') && !(c = ' ' && headIsSpace cs) && spOK cs) := rfl

theorem headIsSpace_spacesF_true : ∀ l : List Char, headIsSpace (spacesF true l) = false := by
  intro l
  induction l with
  | nil => rfl
  | cons c cs ih =>
    cases hc : isHT c
    · rw [spacesF_other hc, headIsSpace_cons]
      have : c ≠ ' ' := by
        intro hh
        subst hh
        exact absurd hc (by decide)
      simp [this]
    · rw [spacesF_ht_true hc]
      exact ih

/-- The horizontal-space collapse produces text with no tab and no two
adjacent spaces. -/
theorem spacesF_spOK : ∀ (b : Bool) (l : List Char), spOK (spacesF b l) = true := by
  intro b l
  induction b, l using spacesF.induct with
  | case1 b => rfl
  | case2 c cs hc ih =>
    rw [spacesF_ht_true hc]
    exact ih
  | case3 b c cs hc hb ih =>
    have hb2 : b = false := by
      revert hb
      cases b <;> simp
    subst hb2
    rw [spacesF_ht_false hc, spOK_cons, headIsSpace_spacesF_true, ih]
    decide
  | case4 b c cs hc ih =>
    have hcf : isHT c = false := by
      revert hc
      cases isHT c <;> simp
    have hsp : c ≠ ' ' := by
      intro hh
      subst hh
      exact absurd hcf (by decide)
    have htb : c ≠ '\t' := by
      intro hh
      subst hh
      exact absurd hcf (by decide)
    rw [spacesF_other hcf, spOK_cons, ih]
    simp [hsp, htb]

/-- Text with no tab and no two adjacent spaces is a fixed point of the
horizontal-space collapse. -/
theorem spacesF_fix_aux : ∀ l : List Char,
    (spOK l = true → spacesF false l = l) ∧
      (spOK l = true → headIsSpace l = false → spacesF true l = l) := by
  intro l
  induction l with
  | nil => exact ⟨fun _ => rfl, fun _ _ => rfl⟩
  | cons c cs ih =>
    have hsplit : spOK (c :: cs) = true →
        c ≠ '\t' ∧ (c = ' ' → headIsSpace cs = false) ∧ spOK cs = true := by
      intro h
      rw [spOK_cons, Bool.and_eq_true, Bool.and_eq_true] at h
      obtain ⟨⟨h1, h2⟩, h3⟩ := h
      refine ⟨by simpa using h1, ?_, h3⟩
      intro hc
      subst hc
      simpa using h2
    constructor
    · intro h
      obtain ⟨h1, h2, h3⟩ := hsplit h
      by_cases hsp : c = ' '
      · subst hsp
        rw [spacesF_ht_false (by decide), (ih.2 h3 (h2 rfl))]
      · have hcf : isHT c = false := by
          rw [isHT]
          simp [hsp, h1]
        rw [spacesF_other hcf, ih.1 h3]
    · intro h hh
      obtain ⟨h1, h2, h3⟩ := hsplit h
      rw [headIsSpace_cons] at hh
      have hsp : c ≠ ' ' := by simpa using hh
      have hcf : isHT c = false := by
        rw [isHT]
        simp [hsp, h1]
      rw [spacesF_other hcf, ih.1 h3]

theorem collapseSpaces_fix {l : List Char} (h : spOK l = true) :
    collapseSpaces l = l :=
  (spacesF_fix_aux l).1 h

/-- The horizontal-space collapse does not change whether the whitespace
prefix contains a newline. -/
theorem wsNlFree_spacesF : ∀ (b : Bool) (l : List Char),
    wsNlFree (spacesF b l) = wsNlFree l := by
  intro b l
  induction b, l using spacesF.induct with
  | case1 b => rfl
  | case2 c cs hc ih =>
    rw [spacesF_ht_true hc, ih,
      wsNlFree_cons_ws (pyWs_of_isHT hc) (ne_nl_of_isHT hc)]
  | case3 b c cs hc hb ih =>
    have hb2 : b = false := by
      revert hb
      cases b <;> simp
    subst hb2
    rw [spacesF_ht_false hc,
      wsNlFree_cons_ws (by decide) (by decide), ih,
      wsNlFree_cons_ws (pyWs_of_isHT hc) (ne_nl_of_isHT hc)]
  | case4 b c cs hc ih =>
    have hcf : isHT c = false := by
      revert hc
      cases isHT c <;> simp
    rw [spacesF_other hcf]
    by_cases hnl : c = '\n'
    · subst hnl
      rw [wsNlFree_nl, wsNlFree_nl]
    · cases hws : pyWs c
      · rw [wsNlFree_cons_nonws hws, wsNlFree_cons_nonws hws]
      · rw [wsNlFree_cons_ws hws hnl, wsNlFree_cons_ws hws hnl, ih]

/-- The horizontal-space collapse preserves the no-blank-line-run form. -/
theorem nbOK_spacesF : ∀ (b : Bool) (l : List Char),
    nbOK l = true → nbOK (spacesF b l) = true := by
  intro b l
  induction b, l using spacesF.induct with
  | case1 b => intro _; rfl
  | case2 c cs hc ih =>
    intro h
    rw [nbOK_cons_nonl (ne_nl_of_isHT hc)] at h
    rw [spacesF_ht_true hc]
    exact ih h
  | case3 b c cs hc hb ih =>
    intro h
    have hb2 : b = false := by
      revert hb
      cases b <;> simp
    subst hb2
    rw [nbOK_cons_nonl (ne_nl_of_isHT hc)] at h
    rw [spacesF_ht_false hc, nbOK_cons_nonl (by decide)]
    exact ih h
  | case4 b c cs hc ih =>
    intro h
    have hcf : isHT c = false := by
      revert hc
      cases isHT c <;> simp
    rw [spacesF_other hcf]
    by_cases hnl : c = '\n'
    · subst hnl
      rw [nbOK_cons_nl, Bool.and_eq_true] at h
      rw [nbOK_cons_nl, wsNlFree_spacesF, h.1, ih h.2]
      rfl
    · rw [nbOK_cons_nonl hnl] at h
      rw [nbOK_cons_nonl hnl]
      exact ih h

/-- When the input ends in a non-whitespace character, the horizontal-space
collapse keeps the last character and produces non-empty output. -/
theorem spacesF_getLast : ∀ (b : Bool) (l : List Char), l ≠ [] → lastNotWs l →
    (spacesF b l).getLast? = l.getLast? ∧ spacesF b l ≠ [] := by
  intro b l
  induction b, l using spacesF.induct with
  | case1 b => intro h _; exact absurd rfl h
  | case2 c cs hc ih =>
    intro _ hlw
    cases cs with
    | nil =>
      rw [lastNotWs_singleton] at hlw
      exact absurd (pyWs_of_isHT hc) (by rw [hlw]; simp)
    | cons e t =>
      obtain ⟨h1, h2⟩ := ih (by simp) ((lastNotWs_cons_of_ne_nil (by simp)).mp hlw)
      rw [spacesF_ht_true hc, h1,
        getLast?_cons_ne_nil (by simp : (e :: t : List Char) ≠ [])]
      exact ⟨rfl, h2⟩
  | case3 b c cs hc hb ih =>
    intro _ hlw
    have hb2 : b = false := by
      revert hb
      cases b <;> simp
    subst hb2
    cases cs with
    | nil =>
      rw [lastNotWs_singleton] at hlw
      exact absurd (pyWs_of_isHT hc) (by rw [hlw]; simp)
    | cons e t =>
      obtain ⟨h1, h2⟩ := ih (by simp) ((lastNotWs_cons_of_ne_nil (by simp)).mp hlw)
      rw [spacesF_ht_false hc, getLast?_cons_ne_nil h2, h1,
        getLast?_cons_ne_nil (by simp : (e :: t : List Char) ≠ [])]
      exact ⟨rfl, by simp⟩
  | case4 b c cs hc ih =>
    intro _ hlw
    have hcf : isHT c = false := by
      revert hc
      cases isHT c <;> simp
    rw [spacesF_other hcf]
    cases cs with
    | nil => exact ⟨rfl, by simp⟩
    | cons e t =>
      obtain ⟨h1, h2⟩ := ih (by simp) ((lastNotWs_cons_of_ne_nil (by simp)).mp hlw)
      rw [getLast?_cons_ne_nil h2, h1,
        getLast?_cons_ne_nil (by simp : (e :: t : List Char) ≠ [])]
      exact ⟨rfl, by simp⟩

theorem collapseSpaces_lastNotWs {l : List Char} (h : l ≠ []) (hl : lastNotWs l) :
    lastNotWs (collapseSpaces l) := by
  intro c hc
  rw [show collapseSpaces l = spacesF false l from rfl,
    (spacesF_getLast false l h hl).1] at hc
  exact hl c hc

theorem collapseSpaces_ne_nil {l : List Char} (h : l ≠ []) (hl : lastNotWs l) :
    collapseSpaces l ≠ [] :=
  (spacesF_getLast false l h hl).2

theorem collapseSpaces_head {l : List Char} (h : headNotWs l) :
    (collapseSpaces l).head? = l.head? := by
  cases l with
  | nil => rfl
  | cons c cs =>
    have hc : pyWs c = false := h c rfl
    rw [show collapseSpaces (c :: cs) = spacesF false (c :: cs) from rfl,
      spacesF_other (isHT_of_not_ws hc)]
    rfl

theorem collapseSpaces_headNotWs {l : List Char} (h : headNotWs l) :
    headNotWs (collapseSpaces l) := by
  intro c hc
  rw [collapseSpaces_head h] at hc
  exact h c hc

theorem spacesF_no_cr : ∀ (b : Bool) (l : List Char),
    '\r' ∉ l → '\r' ∉ spacesF b l := by
  intro b l
  induction b, l using spacesF.induct with
  | case1 b => intro _ h; exact absurd h (List.not_mem_nil _)
  | case2 c cs hc ih =>
    intro hl
    rw [spacesF_ht_true hc]
    exact ih (fun hh => hl (List.mem_cons_of_mem _ hh))
  | case3 b c cs hc hb ih =>
    intro hl
    have hb2 : b = false := by
      revert hb
      cases b <;> simp
    subst hb2
    rw [spacesF_ht_false hc]
    simp only [List.mem_cons]
    rintro (h | h)
    · exact absurd h (by decide)
    · exact ih (fun hh => hl (List.mem_cons_of_mem _ hh)) h
  | case4 b c cs hc ih =>
    intro hl
    have hcf : isHT c = false := by
      revert hc
      cases isHT c <;> simp
    rw [spacesF_other hcf]
    simp only [List.mem_cons]
    rintro (h | h)
    · exact hl (h ▸ List.mem_cons_self _ _)
    · exact ih (fun hh => hl (List.mem_cons_of_mem _ hh)) h

/-! ## Whitespace normal forms: strip -/

theorem dropWhile_head_not {p : Char → Bool} : ∀ {l : List Char} {c : Char},
    (l.dropWhile p).head? = some c → p c = false := by
  intro l
  induction l with
  | nil => intro c h; exact absurd h (by simp)
  | cons a as ih =>
    intro c h
    cases ha : p a
    · rw [List.dropWhile_cons_of_neg (by simp [ha])] at h
      cases h
      exact ha
    · rw [List.dropWhile_cons_of_pos ha] at h
      exact ih h

theorem getLast?_dropWhile {p : Char → Bool} : ∀ (l : List Char),
    l.dropWhile p ≠ [] → (l.dropWhile p).getLast? = l.getLast? := by
  intro l
  induction l with
  | nil => intro h; rfl
  | cons a as ih =>
    intro h
    cases ha : p a
    · rw [List.dropWhile_cons_of_neg (by simp [ha])]
    · rw [List.dropWhile_cons_of_pos ha] at h ⊢
      have has : as ≠ [] := by
        intro hh
        subst hh
        exact absurd rfl h
      rw [ih h, getLast?_cons_ne_nil has]

theorem pyStrip_headNotWs (l : List Char) : headNotWs (pyStrip l) := by
  intro c hc
  unfold pyStrip at hc
  rw [List.head?_reverse] at hc
  have hne : (((l.dropWhile pyWs).reverse).dropWhile pyWs) ≠ [] := by
    intro hh
    rw [hh] at hc
    exact absurd hc (by simp)
  rw [getLast?_dropWhile _ hne, List.getLast?_reverse] at hc
  exact dropWhile_head_not hc

theorem pyStrip_lastNotWs (l : List Char) : lastNotWs (pyStrip l) := by
  intro c hc
  unfold pyStrip at hc
  rw [List.getLast?_reverse] at hc
  exact dropWhile_head_not hc

theorem dropWhile_eq_self_of_head {p : Char → Bool} {l : List Char}
    (h : ∀ c, l.head? = some c → p c = false) : l.dropWhile p = l := by
  cases l with
  | nil => rfl
  | cons a as => exact List.dropWhile_cons_of_neg (by simp [h a rfl])

theorem pyStrip_fix {l : List Char} (h1 : headNotWs l) (h2 : lastNotWs l) :
    pyStrip l = l := by
  unfold pyStrip
  rw [dropWhile_eq_self_of_head h1]
  rw [dropWhile_eq_self_of_head (fun c hc => h2 c (by rwa [List.head?_reverse] at hc))]
  exact List.reverse_reverse l

/-! ## Whitespace normal forms: the expansion passes -/

theorem not_ws_of_word {c : Char} (h : isWordChar c = true) : pyWs c = false := by
  cases hw : pyWs c
  · rfl
  · rw [pyWs_not_word hw] at h
    exact absurd h (by simp)

/-- A match can only start at a word character (the token head being one). -/
theorem match_head_word {r : Rule} (hW : isWordChar r.tokHead = true)
    {p : Option Char} {c : Char} {cs : List Char}
    (hm : matchAt r p (c :: cs) = true) : isWordChar c = true := by
  unfold matchAt at hm
  rw [Bool.and_eq_true, Bool.and_eq_true] at hm
  have ht := hm.1.2
  rw [Rule.tok] at ht
  rw [show tokAt (r.tokHead :: r.tokTail) (c :: cs)
      = (decide (c.toLower = r.tokHead) && tokAt r.tokTail cs) from rfl,
    Bool.and_eq_true, decide_eq_true_eq] at ht
  exact word_of_toLower ht.1 hW

theorem drop_colon_shape {k : Nat} {l : List Char}
    (hh : (l.drop k).head? = some ':') :
    l.drop k = ':' :: (l.drop k).tail := by
  cases hd : l.drop k with
  | nil => rw [hd] at hh; exact absurd hh (by simp)
  | cons d t =>
    rw [hd] at hh
    simp only [List.head?_cons, Option.some.injEq] at hh
    subst hh
    rfl

theorem nbOK_tail {c : Char} {cs : List Char} (h : nbOK (c :: cs) = true) :
    nbOK cs = true := by
  by_cases hc : c = '\n'
  · subst hc
    rw [nbOK_cons_nl, Bool.and_eq_true] at h
    exact h.2
  · rw [nbOK_cons_nonl hc] at h
    exact h

theorem nbOK_drop : ∀ (k : Nat) (l : List Char), nbOK l = true →
    nbOK (l.drop k) = true := by
  intro k
  induction k with
  | zero => intro l h; exact h
  | succ k ih =>
    intro l h
    cases l with
    | nil => exact h
    | cons c cs =>
      rw [List.drop_succ_cons]
      exact ih cs (nbOK_tail h)

theorem spOK_tail {c : Char} {cs : List Char} (h : spOK (c :: cs) = true) :
    spOK cs = true := by
  rw [spOK_cons, Bool.and_eq_true] at h
  exact h.2

theorem spOK_drop : ∀ (k : Nat) (l : List Char), spOK l = true →
    spOK (l.drop k) = true := by
  intro k
  induction k with
  | zero => intro l h; exact h
  | succ k ih =>
    intro l h
    cases l with
    | nil => exact h
    | cons c cs =>
      rw [List.drop_succ_cons]
      exact ih cs (spOK_tail h)

theorem lastNotWs_drop {l : List Char} (h : lastNotWs l) (k : Nat) :
    lastNotWs (l.drop k) := by
  intro c hc
  have hne : l.drop k ≠ [] := by
    intro hh
    rw [hh] at hc
    exact absurd hc (by simp)
  have h2 := @getLast?_append_right (l.take k) (l.drop k) hne
  rw [List.take_append_drop] at h2
  exact h c (h2.trans hc)

theorem spOK_append : ∀ {a b : List Char}, spOK a = true → spOK b = true →
    (a.getLast? = some ' ' → headIsSpace b = false) → spOK (a ++ b) = true := by
  intro a
  induction a with
  | nil => intro b _ hb _; exact hb
  | cons c cs ih =>
    intro b ha hb hlast
    rw [spOK_cons, Bool.and_eq_true] at ha
    obtain ⟨h12, h3⟩ := ha
    rw [Bool.and_eq_true] at h12
    obtain ⟨h1, h2⟩ := h12
    rw [List.cons_append, spOK_cons, Bool.and_eq_true, Bool.and_eq_true]
    refine ⟨⟨h1, ?_⟩, ?_⟩
    · cases cs with
      | nil =>
        by_cases hc : c = ' '
        · subst hc
          have hb2 := hlast rfl
          simp [hb2]
        · simp [hc]
      | cons e t =>
        rw [List.cons_append, headIsSpace_cons]
        rw [headIsSpace_cons] at h2
        exact h2
    · refine ih h3 hb ?_
      intro hl
      refine hlast ?_
      cases cs with
      | nil => exact absurd hl (by simp)
      | cons e t =>
        rw [getLast?_cons_ne_nil (by simp)]
        exact hl

/-- The output of one expansion step is never empty when the input is not. -/
theorem expandTok_ne_nil {r : Rule} (hRN : r.repl ≠ []) {l : List Char}
    (hne : l ≠ []) (p : Option Char) : expandTok r p l ≠ [] := by
  cases l with
  | nil => exact absurd rfl hne
  | cons c cs =>
    by_cases hm : matchAt r p (c :: cs) = true
    · by_cases hco : r.optColon = true ∧ ((c :: cs).drop r.tok.length).head? = some ':'
      · rw [expandTok_cons_colon hm hco.1 (drop_colon_shape hco.2)]
        intro hh
        exact hRN (List.append_eq_nil.mp hh).1
      · rcases not_and_or.mp hco with h | h
        · rw [expandTok_cons_nocolon hm (Or.inl (by revert h; cases r.optColon <;> simp))]
          intro hh
          exact hRN (List.append_eq_nil.mp hh).1
        · rw [expandTok_cons_nocolon hm (Or.inr h)]
          intro hh
          exact hRN (List.append_eq_nil.mp hh).1
    · have hmf : matchAt r p (c :: cs) = false := by
        revert hm
        cases matchAt r p (c :: cs) <;> simp
      rw [expandTok_cons_nomatch hmf]
      simp

/-- The first output character of an expansion step is the first input
character or the first replacement character. -/
theorem expandTok_head {r : Rule} (hRN : r.repl ≠ []) {p : Option Char}
    {c : Char} {cs : List Char} :
    (expandTok r p (c :: cs)).head? = some c ∨
      (expandTok r p (c :: cs)).head? = r.repl.head? := by
  by_cases hm : matchAt r p (c :: cs) = true
  · refine Or.inr ?_
    cases hr : r.repl with
    | nil => exact absurd hr hRN
    | cons a as =>
      by_cases hco : r.optColon = true ∧ ((c :: cs).drop r.tok.length).head? = some ':'
      · rw [expandTok_cons_colon hm hco.1 (drop_colon_shape hco.2), hr]
        rfl
      · rcases not_and_or.mp hco with h | h
        · rw [expandTok_cons_nocolon hm (Or.inl (by revert h; cases r.optColon <;> simp)), hr]
          rfl
        · rw [expandTok_cons_nocolon hm (Or.inr h), hr]
          rfl
  · have hmf : matchAt r p (c :: cs) = false := by
      revert hm
      cases matchAt r p (c :: cs) <;> simp
    rw [expandTok_cons_nomatch hmf]
    exact Or.inl rfl

/-- Every match branch emits the replacement and continues on a suffix
dropped by at least one character. -/
theorem expandTok_match_shape {r : Rule} {p : Option Char} {c : Char} {cs : List Char}
    (hm : matchAt r p (c :: cs) = true) :
    ∃ (p2 : Option Char) (k : Nat), 1 ≤ k ∧
      expandTok r p (c :: cs) = r.repl ++ expandTok r p2 ((c :: cs).drop k) := by
  have htok : 1 ≤ r.tok.length := by
    rw [Rule.tok]
    simp
  by_cases hco : r.optColon = true ∧ ((c :: cs).drop r.tok.length).head? = some ':'
  · refine ⟨some ':', r.tok.length + 1, by omega, ?_⟩
    rw [expandTok_cons_colon hm hco.1 (drop_colon_shape hco.2), List.tail_drop]
  · rcases not_and_or.mp hco with h | h
    · exact ⟨_, r.tok.length, htok,
        expandTok_cons_nocolon hm (Or.inl (by revert h; cases r.optColon <;> simp))⟩
    · exact ⟨_, r.tok.length, htok, expandTok_cons_nocolon hm (Or.inr h)⟩

/-- The expansion pass does not change the whitespace prefix of the text. -/
theorem expandTok_takeWhile {r : Rule} (hW : isWordChar r.tokHead = true)
    (hRN : r.repl ≠ []) (hRH : ∀ a, r.repl.head? = some a → pyWs a = false) :
    ∀ (n : Nat) (l : List Char), l.length ≤ n → ∀ p : Option Char,
      (expandTok r p l).takeWhile pyWs = l.takeWhile pyWs := by
  intro n
  induction n with
  | zero =>
    intro l hl p
    cases l with
    | nil => rfl
    | cons c cs => simp at hl
  | succ n ih =>
    intro l hl p
    cases l with
    | nil => rfl
    | cons c cs =>
      by_cases hm : matchAt r p (c :: cs) = true
      · have hcw : pyWs c = false := not_ws_of_word (match_head_word hW hm)
        obtain ⟨p2, k, hk, hX⟩ := expandTok_match_shape hm
        rw [hX]
        cases hr : r.repl with
        | nil => exact absurd hr hRN
        | cons a as =>
          have hpa : pyWs a = false := hRH a (by rw [hr]; rfl)
          rw [List.cons_append, List.takeWhile_cons, if_neg (by simp [hpa]),
            List.takeWhile_cons, if_neg (by simp [hcw])]
      · have hmf : matchAt r p (c :: cs) = false := by
          revert hm
          cases matchAt r p (c :: cs) <;> simp
        rw [expandTok_cons_nomatch hmf]
        cases hcw : pyWs c
        · rw [List.takeWhile_cons, if_neg (by simp [hcw]),
            List.takeWhile_cons, if_neg (by simp [hcw])]
        · rw [List.takeWhile_cons, if_pos hcw, List.takeWhile_cons, if_pos hcw,
            ih cs (by simp at hl; omega) (some c)]

/-- The expansion pass keeps a non-whitespace last character. -/
theorem expandTok_lastNotWs {r : Rule} (hRN : r.repl ≠ []) (hRL : lastNotWs r.repl) :
    ∀ (n : Nat) (l : List Char), l.length ≤ n → ∀ p : Option Char,
      lastNotWs l → lastNotWs (expandTok r p l) := by
  intro n
  induction n with
  | zero =>
    intro l hl p hlw
    cases l with
    | nil => exact hlw
    | cons c cs => simp at hl
  | succ n ih =>
    intro l hl p hlw
    cases l with
    | nil => exact hlw
    | cons c cs =>
      have hl2 : cs.length ≤ n := by simp at hl; omega
      by_cases hm : matchAt r p (c :: cs) = true
      · obtain ⟨p2, k, hk, hX⟩ := expandTok_match_shape hm
        rw [hX]
        cases hD : (c :: cs).drop k with
        | nil =>
          rw [expandTok_nil, List.append_nil]
          exact hRL
        | cons e t =>
          have hne : expandTok r p2 (e :: t) ≠ [] := expandTok_ne_nil hRN (by simp) p2
          have hlen : (e :: t).length ≤ n := by
            rw [← hD]
            simp [List.length_drop]
            omega
          have hlw2 : lastNotWs (e :: t) := by
            rw [← hD]
            exact lastNotWs_drop hlw k
          have h3 := ih (e :: t) hlen p2 hlw2
          intro d hd
          rw [getLast?_append_right hne] at hd
          exact h3 d hd
      · have hmf : matchAt r p (c :: cs) = false := by
          revert hm
          cases matchAt r p (c :: cs) <;> simp
        rw [expandTok_cons_nomatch hmf]
        cases cs with
        | nil =>
          rw [expandTok_nil]
          exact hlw
        | cons e t =>
          have hne : expandTok r (some c) (e :: t) ≠ [] := expandTok_ne_nil hRN (by simp) _
          have h3 := ih (e :: t) hl2 (some c) ((lastNotWs_cons_of_ne_nil (by simp)).mp hlw)
          intro d hd
          rw [getLast?_cons_ne_nil hne] at hd
          exact h3 d hd

/-- The expansion pass preserves the no-blank-line-run form. -/
theorem expandTok_nbOK {r : Rule} (hW : isWordChar r.tokHead = true)
    (hRN : r.repl ≠ []) (hRH : ∀ a, r.repl.head? = some a → pyWs a = false)
    (hNL : '\n' ∉ r.repl) :
    ∀ (n : Nat) (l : List Char), l.length ≤ n → ∀ p : Option Char,
      nbOK l = true → nbOK (expandTok r p l) = true := by
  intro n
  induction n with
  | zero =>
    intro l hl p h
    cases l with
    | nil => exact h
    | cons c cs => simp at hl
  | succ n ih =>
    intro l hl p h
    cases l with
    | nil => exact h
    | cons c cs =>
      have hl2 : cs.length ≤ n := by simp at hl; omega
      by_cases hm : matchAt r p (c :: cs) = true
      · obtain ⟨p2, k, hk, hX⟩ := expandTok_match_shape hm
        rw [hX]
        refine nbOK_append_nonl hNL ?_
        refine ih ((c :: cs).drop k) ?_ p2 (nbOK_drop k _ h)
        simp [List.length_drop]
        omega
      · have hmf : matchAt r p (c :: cs) = false := by
          revert hm
          cases matchAt r p (c :: cs) <;> simp
        rw [expandTok_cons_nomatch hmf]
        by_cases hc : c = '\n'
        · subst hc
          rw [nbOK_cons_nl, Bool.and_eq_true] at h
          rw [nbOK_cons_nl]
          have hws : wsNlFree (expandTok r (some '\n') cs) = true := by
            unfold wsNlFree
            rw [expandTok_takeWhile hW hRN hRH n cs hl2 (some '\n')]
            exact h.1
          rw [hws, ih cs hl2 (some '\n') h.2]
          rfl
        · rw [nbOK_cons_nonl hc] at h
          rw [nbOK_cons_nonl hc]
          exact ih cs hl2 (some c) h

/-- The expansion pass preserves the no-tab, no-double-space form. -/
theorem expandTok_spOK {r : Rule} (hRN : r.repl ≠ [])
    (hRH : ∀ a, r.repl.head? = some a → pyWs a = false)
    (hRL : lastNotWs r.repl) (hSP : spOK r.repl = true) :
    ∀ (n : Nat) (l : List Char), l.length ≤ n → ∀ p : Option Char,
      spOK l = true → spOK (expandTok r p l) = true := by
  intro n
  induction n with
  | zero =>
    intro l hl p h
    cases l with
    | nil => exact h
    | cons c cs => simp at hl
  | succ n ih =>
    intro l hl p h
    cases l with
    | nil => exact h
    | cons c cs =>
      have hl2 : cs.length ≤ n := by simp at hl; omega
      by_cases hm : matchAt r p (c :: cs) = true
      · obtain ⟨p2, k, hk, hX⟩ := expandTok_match_shape hm
        rw [hX]
        refine spOK_append hSP ?_ ?_
        · refine ih ((c :: cs).drop k) ?_ p2 (spOK_drop k _ h)
          simp [List.length_drop]
          omega
        · intro hl'
          exact absurd (hRL ' ' hl') (by decide)
      · have hmf : matchAt r p (c :: cs) = false := by
          revert hm
          cases matchAt r p (c :: cs) <;> simp
        rw [expandTok_cons_nomatch hmf]
        rw [spOK_cons, Bool.and_eq_true] at h
        obtain ⟨h12, h3⟩ := h
        rw [Bool.and_eq_true] at h12
        obtain ⟨h1, h2⟩ := h12
        rw [spOK_cons, Bool.and_eq_true, Bool.and_eq_true]
        refine ⟨⟨h1, ?_⟩, ih cs hl2 (some c) h3⟩
        by_cases hc : c = ' '
        · subst hc
          have hcs : headIsSpace cs = false := by
            cases hht : headIsSpace cs
            · rfl
            · rw [hht] at h2
              exact absurd h2 (by decide)
          cases cs with
          | nil =>
            rw [expandTok_nil]
            simp [headIsSpace]
          | cons e t =>
            have he : e ≠ ' ' := by
              rw [headIsSpace_cons] at hcs
              simpa using hcs
            rcases @expandTok_head r hRN (some ' ') e t with h4 | h4
            · simp [headIsSpace, h4, he]
            · cases hr : r.repl with
              | nil => exact absurd hr hRN
              | cons a as =>
                have hpa : pyWs a = false := hRH a (by rw [hr]; rfl)
                have ha : a ≠ ' ' := by
                  intro hh
                  subst hh
                  exact absurd hpa (by decide)
                rw [hr] at h4
                simp [headIsSpace, h4, ha]
        · simp [hc]

/-- The expansion pass introduces no carriage return. -/
theorem expandTok_no_cr {r : Rule} (hCR : '\r' ∉ r.repl) :
    ∀ (n : Nat) (l : List Char), l.length ≤ n → ∀ p : Option Char,
      '\r' ∉ l → '\r' ∉ expandTok r p l := by
  intro n
  induction n with
  | zero =>
    intro l hl p h
    cases l with
    | nil => exact h
    | cons c cs => simp at hl
  | succ n ih =>
    intro l hl p h
    cases l with
    | nil => exact h
    | cons c cs =>
      have hl2 : cs.length ≤ n := by simp at hl; omega
      by_cases hm : matchAt r p (c :: cs) = true
      · obtain ⟨p2, k, hk, hX⟩ := expandTok_match_shape hm
        rw [hX]
        intro hmem
        rcases List.mem_append.mp hmem with hmem | hmem
        · exact hCR hmem
        · refine ih ((c :: cs).drop k) ?_ p2 (fun hh => h (List.drop_subset _ _ hh)) hmem
          simp [List.length_drop]
          omega
      · have hmf : matchAt r p (c :: cs) = false := by
          revert hm
          cases matchAt r p (c :: cs) <;> simp
        rw [expandTok_cons_nomatch hmf]
        intro hmem
        rcases List.mem_cons.mp hmem with hmem | hmem
        · exact h (hmem ▸ List.mem_cons_self _ _)
        · exact ih cs hl2 (some c) (fun hh => h (List.mem_cons_of_mem _ hh)) hmem

/-- The expansion pass keeps a non-whitespace first character. -/
theorem expandTok_headNotWs {r : Rule} (hRN : r.repl ≠ [])
    (hRH : ∀ a, r.repl.head? = some a → pyWs a = false)
    {l : List Char} (h : headNotWs l) (p : Option Char) :
    headNotWs (expandTok r p l) := by
  cases l with
  | nil =>
    intro d hd
    rw [expandTok_nil] at hd
    exact absurd hd (by simp)
  | cons c cs =>
    intro d hd
    rcases @expandTok_head r hRN p c cs with h1 | h1
    · rw [h1] at hd
      cases hd
      exact h c rfl
    · rw [h1] at hd
      exact hRH d hd

/-! ## The sanitizer pipeline invariant and idempotence -/

theorem lastNotWs_of_getLast {l : List Char} {b : Char}
    (hb : l.getLast? = some b) (h : pyWs b = false) : lastNotWs l := by
  intro c hc
  rw [hb] at hc
  cases hc
  exact h

/-- Any of the four expansion rules with well-behaved replacement text
preserves the sanitizer's whitespace normal form. -/
theorem expandTok_wsClean {r : Rule} (hW : isWordChar r.tokHead = true)
    (hRN : r.repl ≠ []) (hRH : ∀ a, r.repl.head? = some a → pyWs a = false)
    (hRL : lastNotWs r.repl) (hNL : '\n' ∉ r.repl) (hCR : '\r' ∉ r.repl)
    (hSP : spOK r.repl = true) {l : List Char} (h : wsClean l) (p : Option Char) :
    wsClean (expandTok r p l) := by
  obtain ⟨h0, h1, h2, h3, h4, h5⟩ := h
  exact ⟨expandTok_ne_nil hRN h0 p, expandTok_headNotWs hRN hRH h1 p,
    expandTok_lastNotWs hRN hRL l.length l (le_refl _) p h2,
    expandTok_no_cr hCR l.length l (le_refl _) p h3,
    expandTok_nbOK hW hRN hRH hNL l.length l (le_refl _) p h4,
    expandTok_spOK hRN hRH hRL hSP l.length l (le_refl _) p h5⟩

/-- The pipeline output is in the whitespace normal form whenever the
stripped input is non-empty. -/
theorem sanitizePipeline_wsClean {l : List Char} (h : pyStrip l ≠ []) :
    wsClean (sanitizePipeline l) := by
  have a0h : headNotWs (pyStrip l) := pyStrip_headNotWs l
  have a0l : lastNotWs (pyStrip l) := pyStrip_lastNotWs l
  have a1ne : nlNorm (pyStrip l) ≠ [] := nlNorm_ne_nil h
  have a1h : headNotWs (nlNorm (pyStrip l)) := nlNorm_headNotWs a0h
  have a1l : lastNotWs (nlNorm (pyStrip l)) := nlNorm_lastNotWs a0l
  have a1cr : '\r' ∉ nlNorm (pyStrip l) := nlNorm_no_cr _
  have a2ne : collapseBlanks (nlNorm (pyStrip l)) ≠ [] := collapseBlanks_ne_nil a1ne a1l
  have a2h : headNotWs (collapseBlanks (nlNorm (pyStrip l))) := collapseBlanks_headNotWs a1h
  have a2l : lastNotWs (collapseBlanks (nlNorm (pyStrip l))) := collapseBlanks_lastNotWs a1ne a1l
  have a2cr : '\r' ∉ collapseBlanks (nlNorm (pyStrip l)) :=
    blanksF_no_cr none _ a1cr (fun _ hb => nomatch hb)
  have a2nb : nbOK (collapseBlanks (nlNorm (pyStrip l))) = true := collapseBlanks_nbOK _
  have w3 : wsClean (collapseSpaces (collapseBlanks (nlNorm (pyStrip l)))) :=
    ⟨collapseSpaces_ne_nil a2ne a2l, collapseSpaces_headNotWs a2h,
      collapseSpaces_lastNotWs a2ne a2l, spacesF_no_cr false _ a2cr,
      nbOK_spacesF false _ a2nb, spacesF_spOK false _⟩
  have wpt : wsClean (expandTok ptRule none
      (collapseSpaces (collapseBlanks (nlNorm (pyStrip l))))) :=
    expandTok_wsClean (by decide) (by decide) (fun a ha => by cases ha; decide)
      (lastNotWs_of_getLast (show ptRule.repl.getLast? = some ':' from by decide) (by decide))
      (by decide) (by decide) (by decide) w3 none
  have wdr : wsClean (expandTok drRule none (expandTok ptRule none
      (collapseSpaces (collapseBlanks (nlNorm (pyStrip l)))))) :=
    expandTok_wsClean (by decide) (by decide) (fun a ha => by cases ha; decide)
      (lastNotWs_of_getLast (show drRule.repl.getLast? = some ':' from by decide) (by decide))
      (by decide) (by decide) (by decide) wpt none
  have whx : wsClean (expandTok hxRule none (expandTok drRule none (expandTok ptRule none
      (collapseSpaces (collapseBlanks (nlNorm (pyStrip l))))))) :=
    expandTok_wsClean (by decide) (by decide) (fun a ha => by cases ha; decide)
      (lastNotWs_of_getLast (show hxRule.repl.getLast? = some 'y' from by decide) (by decide))
      (by decide) (by decide) (by decide) wdr none
  exact expandTok_wsClean (by decide) (by decide) (fun a ha => by cases ha; decide)
    (lastNotWs_of_getLast (show coRule.repl.getLast? = some 'f' from by decide) (by decide))
    (by decide) (by decide) (by decide) whx none

/-- After the four expansion passes, none of the four rules matches
anywhere in the pipeline output. -/
theorem sanitizePipeline_noMatches (l : List Char) :
    noMatchB ptRule none (sanitizePipeline l) = true ∧
      noMatchB drRule none (sanitizePipeline l) = true ∧
      noMatchB hxRule none (sanitizePipeline l) = true ∧
      noMatchB coRule none (sanitizePipeline l) = true := by
  unfold sanitizePipeline
  refine ⟨?_, ?_, ?_, ?_⟩
  · exact noMatch_pt_co _ none (noMatch_pt_hx _ none (noMatch_pt_dr _ none
      (noMatch_pt_self _ none)))
  · exact noMatch_dr_co _ none (noMatch_dr_hx _ none (noMatch_dr_self _ none))
  · exact noMatch_hx_co _ none (noMatch_hx_self _ none)
  · exact noMatch_co_self _ none

/-- Text in the whitespace normal form on which no rule matches is a fixed
point of the whole pipeline. -/
theorem sanitizePipeline_fix {l : List Char} (hw : wsClean l)
    (n1 : noMatchB ptRule none l = true) (n2 : noMatchB drRule none l = true)
    (n3 : noMatchB hxRule none l = true) (n4 : noMatchB coRule none l = true) :
    sanitizePipeline l = l := by
  obtain ⟨h0, h1, h2, h3, h4, h5⟩ := hw
  unfold sanitizePipeline
  rw [pyStrip_fix h1 h2, nlNorm_fix h3, collapseBlanks_fix h4, collapseSpaces_fix h5,
    expandTok_of_noMatch _ _ _ n1, expandTok_of_noMatch _ _ _ n2,
    expandTok_of_noMatch _ _ _ n3, expandTok_of_noMatch _ _ _ n4]

/-- C7: the sanitizer is idempotent — for every input string,
`sanitize_transcript (sanitize_transcript x) = sanitize_transcript x` — and
the empty-input placeholder "No transcript provided." is itself a fixed
point of the sanitizer. -/
theorem C7_sanitize_idempotent :
    (∀ x : String, sanitize_transcript (sanitize_transcript x) = sanitize_transcript x)
      ∧ sanitize_transcript "No transcript provided." = "No transcript provided." := by
  have hfp : sanitize_transcript "No transcript provided." = "No transcript provided." := by
    decide
  refine ⟨?_, hfp⟩
  intro x
  by_cases h : pyStrip x.toList = []
  · have hx : sanitize_transcript x = "No transcript provided." := by
      unfold sanitize_transcript
      rw [if_pos h]
    rw [hx, hfp]
  · have hy : sanitize_transcript x = ⟨sanitizePipeline x.toList⟩ := by
      unfold sanitize_transcript
      rw [if_neg h]
    rw [hy]
    have hw : wsClean (sanitizePipeline x.toList) := sanitizePipeline_wsClean h
    obtain ⟨hn1, hn2, hn3, hn4⟩ := sanitizePipeline_noMatches x.toList
    have hstrip : pyStrip (sanitizePipeline x.toList) = sanitizePipeline x.toList :=
      pyStrip_fix hw.2.1 hw.2.2.1
    show sanitize_transcript ⟨sanitizePipeline x.toList⟩ = ⟨sanitizePipeline x.toList⟩
    unfold sanitize_transcript
    rw [show (String.mk (sanitizePipeline x.toList)).toList = sanitizePipeline x.toList
        from rfl]
    rw [if_neg (by rw [hstrip]; exact hw.1)]
    rw [sanitizePipeline_fix hw hn1 hn2 hn3 hn4]

end Soapify
